import Mathlib

/-!
Verification of the privacy-preserving proxy core of the zeroproof python SDK
(`src/mcp/shared/proxy_fetch.py` and `src/mcp/shared/proof.py`).

The shallow embedding below models Python JSON-shaped values (`dict`/`list`/
scalars) as the inductive type `JVal`; a Python `dict` is an insertion-ordered
association list with unique keys (uniqueness is assumed via `Nodup`
hypotheses where it matters).  The functions mirror the source code, never the
specification text.
-/

namespace ZeroProof

/-- A JSON-shaped Python value (dicts are insertion-ordered association lists). -/
inductive JVal where
  | jnull
  | jbool (b : Bool)
  | jnum (n : Int)
  | jstr (s : String)
  | jarr (xs : List JVal)
  | jobj (fs : List (String × JVal))

mutual
/-- Structural equality test on `JVal` (Python `==` on JSON-shaped values). -/
def jeq : JVal → JVal → Bool
  | .jnull, .jnull => true
  | .jbool a, .jbool b => a == b
  | .jnum a, .jnum b => a == b
  | .jstr a, .jstr b => a == b
  | .jarr a, .jarr b => jeqList a b
  | .jobj a, .jobj b => jeqObj a b
  | _, _ => false

def jeqList : List JVal → List JVal → Bool
  | [], [] => true
  | a :: arest, b :: brest => jeq a b && jeqList arest brest
  | _, _ => false

def jeqObj : List (String × JVal) → List (String × JVal) → Bool
  | [], [] => true
  | (k1, v1) :: r1, (k2, v2) :: r2 => k1 == k2 && jeq v1 v2 && jeqObj r1 r2
  | _, _ => false
end

instance : BEq JVal := ⟨jeq⟩

theorem jeq_def (a b : JVal) : (a == b) = jeq a b := rfl

mutual
theorem jeq_iff : ∀ a b : JVal, jeq a b = true ↔ a = b
  | .jnull, b => by cases b <;> simp [jeq]
  | .jbool a, b => by cases b <;> simp [jeq]
  | .jnum a, b => by cases b <;> simp [jeq]
  | .jstr a, b => by cases b <;> simp [jeq]
  | .jarr a, b => by
      cases b <;> simp [jeq]
      exact jeqList_iff a _
  | .jobj a, b => by
      cases b <;> simp [jeq]
      exact jeqObj_iff a _

theorem jeqList_iff : ∀ xs ys : List JVal, jeqList xs ys = true ↔ xs = ys
  | [], ys => by cases ys <;> simp [jeqList]
  | x :: xs, [] => by simp [jeqList]
  | x :: xs, y :: ys => by
      simp [jeqList, Bool.and_eq_true, jeq_iff x y, jeqList_iff xs ys]

theorem jeqObj_iff : ∀ xs ys : List (String × JVal), jeqObj xs ys = true ↔ xs = ys
  | [], ys => by cases ys <;> simp [jeqObj]
  | (k1, v1) :: xs, [] => by simp [jeqObj]
  | (k1, v1) :: xs, (k2, v2) :: ys => by
      simp [jeqObj, Bool.and_eq_true, jeq_iff v1 v2, jeqObj_iff xs ys, and_assoc]
end

instance : DecidableEq JVal := fun a b =>
  decidable_of_iff (jeq a b = true) (jeq_iff a b)

instance : LawfulBEq JVal where
  eq_of_beq h := (jeq_iff _ _).mp h
  rfl := by
    intro a
    exact (jeq_iff a a).mpr rfl

/-- A Python dict with string keys holding JSON-shaped values. -/
abbrev JObj := List (String × JVal)

/-- First-occurrence lookup in an association list (Python `d[k]` / `d.get(k)`). -/
def alookup {α : Type} : List (String × α) → String → Option α
  | [], _ => none
  | (k', v) :: rest, k => if k' = k then some v else alookup rest k

/-- `d[k] = v`: update the first occurrence in place, else append (Python dict
assignment keeps the insertion position of an existing key). -/
def aset {α : Type} : List (String × α) → String → α → List (String × α)
  | [], k, v => [(k, v)]
  | (k', v') :: rest, k, v =>
    if k' = k then (k, v) :: rest else (k', v') :: aset rest k v

/-- `d.pop(k, None)`: drop the first occurrence of the key. -/
def apop {α : Type} : List (String × α) → String → List (String × α)
  | [], _ => []
  | (k', v') :: rest, k => if k' = k then rest else (k', v') :: apop rest k

/-- Python `k in d`. -/
def acontains {α : Type} (fs : List (String × α)) (k : String) : Bool :=
  (alookup fs k).isSome

/-- Python truthiness of a JSON-shaped value. -/
def truthy : JVal → Bool
  | .jnull => false
  | .jbool b => b
  | .jnum n => n != 0
  | .jstr s => s != ""
  | .jarr xs => !xs.isEmpty
  | .jobj fs => !fs.isEmpty

mutual
/-- `x` occurs as a (sub)value of `v` (used to express that a value "appears"
somewhere inside a serialized body). -/
def occursVal (x : JVal) : JVal → Bool
  | .jobj fs => x == JVal.jobj fs || occursObj x fs
  | .jarr xs => x == JVal.jarr xs || occursList x xs
  | v => x == v

def occursObj (x : JVal) : List (String × JVal) → Bool
  | [] => false
  | (_, w) :: rest => occursVal x w || occursObj x rest

def occursList (x : JVal) : List JVal → Bool
  | [] => false
  | w :: rest => occursVal x w || occursList x rest
end

section AssocLemmas

variable {α : Type}

theorem alookup_aset_self (fs : List (String × α)) (k : String) (v : α) :
    alookup (aset fs k v) k = some v := by
  induction fs with
  | nil => simp [aset, alookup]
  | cons kv rest ih =>
    obtain ⟨k1, v1⟩ := kv
    by_cases h : k1 = k <;> simp [aset, alookup, h, ih]

theorem alookup_aset_ne (fs : List (String × α)) (k k' : String) (v : α)
    (h : k' ≠ k) : alookup (aset fs k v) k' = alookup fs k' := by
  induction fs with
  | nil => simp [aset, alookup, if_neg (Ne.symm h)]
  | cons kv rest ih =>
    obtain ⟨k1, v1⟩ := kv
    by_cases hk : k1 = k
    · subst hk
      simp [aset, alookup, if_neg (Ne.symm h)]
    · by_cases hk' : k1 = k' <;> simp [aset, alookup, hk, hk', h, ih]

theorem aset_id (fs : List (String × α)) (k : String) (v : α)
    (h : alookup fs k = some v) : aset fs k v = fs := by
  induction fs with
  | nil => simp [alookup] at h
  | cons kv rest ih =>
    obtain ⟨k1, v1⟩ := kv
    by_cases hk : k1 = k
    · subst hk
      simp only [alookup, if_true, eq_self_iff_true, if_pos, Option.some.injEq] at h
      simp [aset, h]
    · simp only [alookup, if_neg hk] at h
      simp [aset, hk, ih h]

theorem alookup_apop_ne (fs : List (String × α)) (k k' : String)
    (h : k' ≠ k) : alookup (apop fs k) k' = alookup fs k' := by
  induction fs with
  | nil => simp [apop]
  | cons kv rest ih =>
    obtain ⟨k1, v1⟩ := kv
    by_cases hk : k1 = k
    · subst hk
      simp [apop, alookup, if_neg (Ne.symm h)]
    · by_cases hk' : k1 = k' <;> simp [apop, alookup, hk, hk', h, ih]

theorem alookup_eq_none (fs : List (String × α)) (k : String)
    (h : k ∉ fs.map Prod.fst) : alookup fs k = none := by
  induction fs with
  | nil => rfl
  | cons kv rest ih =>
    simp only [List.map_cons, List.mem_cons, not_or] at h
    simp [alookup, if_neg (Ne.symm h.1), ih h.2]

theorem alookup_apop_self (fs : List (String × α)) (k : String)
    (h : (fs.map Prod.fst).Nodup) : alookup (apop fs k) k = none := by
  induction fs with
  | nil => simp [apop, alookup]
  | cons kv rest ih =>
    obtain ⟨k1, v1⟩ := kv
    simp only [List.map_cons, List.nodup_cons] at h
    by_cases hk : k1 = k
    · subst hk
      simp only [apop, if_pos rfl]
      exact alookup_eq_none rest k1 h.1
    · simp [apop, alookup, hk, ih h.2]

theorem alookup_ne_nil {fs : List (String × α)} {k : String} {v : α}
    (h : alookup fs k = some v) : fs ≠ [] := by
  intro he
  subst he
  simp [alookup] at h

theorem acontains_of_mem_keys {fs : List (String × α)} {k : String}
    (h : k ∈ fs.map Prod.fst) : acontains fs k = true := by
  induction fs with
  | nil => simp at h
  | cons kv rest ih =>
    simp only [List.map_cons, List.mem_cons] at h
    by_cases hk : kv.1 = k
    · simp [acontains, alookup, hk]
    · rcases h with h | h
      · exact absurd h.symm hk
      · simpa [acontains, alookup, hk] using ih h

theorem aset_keys (fs : List (String × α)) (k : String) (v : α) :
    (aset fs k v).map Prod.fst =
      if acontains fs k then fs.map Prod.fst else fs.map Prod.fst ++ [k] := by
  induction fs with
  | nil => simp [aset, acontains, alookup]
  | cons kv rest ih =>
    obtain ⟨k1, v1⟩ := kv
    by_cases hk : k1 = k
    · subst hk
      simp [aset, acontains, alookup]
    · have hc : acontains ((k1, v1) :: rest) k = acontains rest k := by
        simp [acontains, alookup, hk]
      rw [hc]
      simp only [aset, if_neg hk, List.map_cons]
      rw [ih]
      by_cases hcc : acontains rest k <;> simp [hcc]

theorem aset_keys_nodup (fs : List (String × α)) (k : String) (v : α)
    (h : (fs.map Prod.fst).Nodup) : ((aset fs k v).map Prod.fst).Nodup := by
  rw [aset_keys]
  by_cases hc : acontains fs k
  · simpa [hc] using h
  · have hk : k ∉ fs.map Prod.fst := by
      intro hm
      exact hc (acontains_of_mem_keys hm)
    simp [hc, List.nodup_append, h, hk]

theorem apop_sublist (fs : List (String × α)) (k : String) :
    (apop fs k).Sublist fs := by
  induction fs with
  | nil => simp [apop]
  | cons kv rest ih =>
    by_cases hk : kv.1 = k
    · simp only [apop, if_pos hk]
      exact List.Sublist.cons kv (List.Sublist.refl rest)
    · simp only [apop, if_neg hk]
      exact List.Sublist.cons₂ kv ih

theorem apop_keys_nodup (fs : List (String × α)) (k : String)
    (h : (fs.map Prod.fst).Nodup) : ((apop fs k).map Prod.fst).Nodup := by
  exact List.Nodup.sublist (List.Sublist.map Prod.fst (apop_sublist fs k)) h

end AssocLemmas

/-! ## Python string primitives, modelled on `List Char`

`urllib.parse.parse_qs`, `urllib.parse.unquote` and `str.split` are modelled
character by character.  `pyUnquote` decodes at the byte level, which agrees
with CPython for ASCII percent-escapes (the only ones exercised here). -/

/-- Python `s.split(sep)` for a one-character separator (`"".split(sep) = [""]`). -/
def chSplit (sep : Char) : List Char → List (List Char)
  | [] => [[]]
  | c :: rest =>
    let r := chSplit sep rest
    if c = sep then [] :: r
    else
      match r with
      | h :: t => (c :: h) :: t
      | [] => [[c]]

/-- Python `s.split(sep, 1)`: the text before the first separator, and the
remainder (`none` when the separator does not occur). -/
def chBreakFirst (sep : Char) : List Char → List Char × Option (List Char)
  | [] => ([], none)
  | c :: rest =>
    if c = sep then ([], some rest)
    else
      let p := chBreakFirst sep rest
      (c :: p.1, p.2)

/-- `'+'` → `' '` (the first half of `unquote_plus` used by `parse_qs`). -/
def plusToSpace (s : List Char) : List Char :=
  s.map fun c => if c = '+' then ' ' else c

/-- Hex digit value, accepting both cases. -/
def hexVal (c : Char) : Option Nat :=
  if '0' ≤ c ∧ c ≤ '9' then some (c.toNat - '0'.toNat)
  else if 'a' ≤ c ∧ c ≤ 'f' then some (c.toNat - 'a'.toNat + 10)
  else if 'A' ≤ c ∧ c ≤ 'F' then some (c.toNat - 'A'.toNat + 10)
  else none

/-- `urllib.parse.unquote`, at byte level: a `%XX` escape with two hex digits
becomes the character with that code, anything else is copied verbatim. -/
def pyUnquote : List Char → List Char
  | [] => []
  | '%' :: a :: b :: rest =>
    match hexVal a, hexVal b with
    | some ha, some hb => Char.ofNat (16 * ha + hb) :: pyUnquote rest
    | _, _ => '%' :: pyUnquote (a :: b :: rest)
  | c :: rest => c :: pyUnquote rest

/-- `unquote_plus` as applied by `parse_qsl` to names and values. -/
def unquotePlus (s : List Char) : List Char :=
  pyUnquote (plusToSpace s)

/-- `urllib.parse.parse_qsl(qs, keep_blank_values=True)`: split on `&`, drop
empty chunks, split each chunk at the first `=` (a chunk without `=` keeps a
blank value), and percent/plus-decode names and values. -/
def qsl (qs : List Char) : List (List Char × List Char) :=
  (chSplit '&' qs).filterMap fun nv =>
    if nv.isEmpty then none
    else
      match chBreakFirst '=' nv with
      | (n, some v) => some (unquotePlus n, unquotePlus v)
      | (n, none) => some (unquotePlus n, [])

/-- Append one `(name, value)` pair to the grouped dict built by `parse_qs`:
the value is appended to an existing group for the name, else a new group is
appended. -/
def addPair (acc : List (List Char × List (List Char))) (k v : List Char) :
    List (List Char × List (List Char)) :=
  match acc with
  | [] => [(k, [v])]
  | (k', vs) :: rest =>
    if k' = k then (k', vs ++ [v]) :: rest else (k', vs) :: addPair rest k v

/-- `urllib.parse.parse_qs(qs, keep_blank_values=True)`: pairs grouped by name
in order of first occurrence. -/
def parse_qs (qs : List Char) : List (List Char × List (List Char)) :=
  (qsl qs).foldl (fun acc kv => addPair acc kv.1 kv.2) []

/-! ## Data model (`proxy_fetch.py` dataclasses) -/

/-- `ZkfetchToolOptions` (tool-specific ZK proof configuration). -/
structure ZkfetchToolOptions where
  public_options : Option JObj := none
  private_options : Option JObj := none
  redactions : Option (List JObj) := none
  response_redaction_paths : Option (List (String × String)) := none
  deriving DecidableEq

/-- `AttestationConfig` (attestation service proof submission configuration). -/
structure AttestationConfig where
  service_url : String
  enabled : Bool := true
  workflow_stage : Option String := none
  session_id : Option String := none
  submitted_by : String := "unknown-agent"
  deriving DecidableEq

/-- `ProxyConfig` (configuration for proxy server routing). -/
structure ProxyConfig where
  url : String
  proxy_type : String := "http"
  username : Option String := none
  password : Option String := none
  tool_options_map : Option (List (String × ZkfetchToolOptions)) := none
  default_zk_options : Option ZkfetchToolOptions := none
  debug : Bool := false
  attestation_config : Option AttestationConfig := none
  deriving DecidableEq

/-- `RedactionMetadata` (`proof.py`). -/
structure RedactionMetadata where
  redacted_field_count : Int := 0
  redacted_paths : List String := []
  was_redacted : Bool := false
  deriving DecidableEq

/-- `CryptographicProof` (`proof.py`): the proof record for a tool call. -/
structure CryptographicProof where
  tool_name : String
  timestamp : Int
  request : JObj
  response : JObj
  proof : JObj
  proof_id : Option String := none
  verified : JVal := JVal.jbool false
  onchain_compatible : Bool := false
  display_response : Option JObj := none
  redaction_metadata : Option RedactionMetadata := none
  deriving DecidableEq

/-- The detached attestation-submission task started by `_submit_proof_async`:
the record it will submit together with the submission parameters captured
from the surrounding scope. -/
structure Submission where
  record : CryptographicProof
  session_id : String
  workflow_stage : String
  service_url : String
  submitted_by : String
  deriving DecidableEq

/-- The `publicOptions` part of the zkfetch payload.  `body` is the structured
value whose `json.dumps` serialization is sent (`none` models Python `None`). -/
structure PublicOptions where
  method : String
  body : Option JObj
  timeout : JVal
  deriving DecidableEq

/-- The wire payload POSTed to `{proxy_url}/zkfetch`. -/
structure ZkPayload where
  url : String
  publicOptions : PublicOptions
  privateOptions : JObj
  redactions : List JObj
  deriving DecidableEq

/-- Outcome of the attestation-service HTTP round trip performed by
`submit_proof` (an external collaborator): either a connection-level error or
an HTTP response with status, body text and decoded JSON. -/
inductive AttResponse where
  | netError (msg : String)
  | httpResponse (status : Nat) (text : String) (json : JObj)

/-- `submit_proof` (`proof.py`): a connection error, a non-2xx status, or a
response without a string `proof_id` raises (modelled as `Except.error`);
otherwise the `proof_id` is returned. -/
def submit_proof (r : AttResponse) : Except String String :=
  match r with
  | .netError m => .error ("Failed to send request to attestation service: " ++ m)
  | .httpResponse st txt js =>
    if ¬(200 ≤ st ∧ st ≤ 299) then
      .error ("Failed to submit proof: HTTP " ++ toString st ++ " - " ++ txt)
    else
      match alookup js "proof_id" with
      | some (.jstr pid) => .ok pid
      | _ => .error "No proof_id in response from attestation service"

/-! ## `ProxyFetch` helpers -/

/-- `ProxyFetch._extract_tool_name`: `body.name`, then `body.params.name`,
then `body.params.toolName`, else `None`.  A falsy body (absent or empty
dict) yields `None`; a non-string `name` falls through to the `params`
checks. -/
def extract_tool_name (body : Option JObj) : Option String :=
  match body with
  | none => none
  | some fs =>
    if fs.isEmpty then none
    else
      match alookup fs "name" with
      | some (JVal.jstr s) => some s
      | _ =>
        match alookup fs "params" with
        | some (JVal.jobj ps) =>
          match alookup ps "name" with
          | some (JVal.jstr s) => some s
          | _ =>
            match alookup ps "toolName" with
            | some (JVal.jstr s) => some s
            | _ => none
        | _ => none

/-- `ProxyFetch._resolve_tool_options`.  The Python guard is
`if tool_name and self.config.tool_options_map and tool_name in ...`:
a `None` or empty-string tool name and a `None` or empty map are all falsy
and skip the lookup (an empty map has no keys, so only the empty-string
tool name is an observable extra case). -/
def resolve_tool_options (cfg : ProxyConfig) (toolName : Option String) :
    ZkfetchToolOptions :=
  let hit : Option ZkfetchToolOptions :=
    match toolName, cfg.tool_options_map with
    | some n, some m => if n = "" then none else alookup m n
    | _, _ => none
  match hit, cfg.default_zk_options with
  | some o, _ => o
  | none, some d => d
  | none, none => {}

/-- The body half of hidden-parameter extraction in `_zkfetch_request`:
`for param in hidden_params: if isinstance(param, str) and param in final_body:
param_values_map[param] = final_body[param]; final_body[param] = "\x7bparam\x7d"`.
State is `(final_body, param_values_map)`. -/
def hideFromBody (hidden : List JVal) (st : JObj × JObj) : JObj × JObj :=
  hidden.foldl
    (fun st param =>
      match param with
      | JVal.jstr s =>
        match alookup st.1 s with
        | some v => (aset st.1 s (JVal.jstr ("\x7b" ++ s ++ "\x7d")), aset st.2 s v)
        | none => st
      | _ => st)
    st

/-- One iteration of the `for key, values in query_params.items()` loop of
`_zkfetch_request`: a hidden key records the re-decoded first value and emits
the `key=\x7b\x7bkey\x7d\x7d` placeholder part; any other key re-emits
`key=value` for each of its values.  State is
`(new_query_parts, param_values_map, url_modified)`. -/
def rewriteStep (hidden : List JVal) (st : List (List Char) × JObj × Bool)
    (kv : List Char × List (List Char)) : List (List Char) × JObj × Bool :=
  let parts := st.1
  let pvm := st.2.1
  let modified := st.2.2
  let key := kv.1
  let values := kv.2
  if hidden.contains (JVal.jstr (String.mk key)) then
    let actual : List Char :=
      match values with
      | v :: _ => pyUnquote v
      | [] => []
    (parts ++ [key ++ '=' :: '\x7b' :: '\x7b' :: (key ++ ['\x7d', '\x7d'])],
     aset pvm (String.mk key) (JVal.jstr (String.mk actual)), true)
  else
    (parts ++ values.map (fun v => key ++ '=' :: v), pvm, modified)

/-- Python `"&".join(parts)`. -/
def interAmp : List (List Char) → List Char
  | [] => []
  | [x] => x
  | x :: xs => x ++ '&' :: interAmp xs

/-- The URL half of hidden-parameter extraction in `_zkfetch_request`: when the
URL has a query string, parse it with `parse_qs(..., keep_blank_values=True)`,
run the rewrite loop and, if anything was hidden, reassemble
`base?part1&part2&...`. -/
def zkRewriteUrl (hidden : List JVal) (url : List Char) (pvm0 : JObj) :
    List Char × JObj :=
  if url.contains '?' then
    match chBreakFirst '?' url with
    | (base, some qs) =>
      let items := parse_qs qs
      let r := items.foldl (rewriteStep hidden) ([], pvm0, false)
      (if r.2.2 then base ++ '?' :: interAmp r.1 else url, r.2.1)
    | (_, none) => (url, pvm0)
  else (url, pvm0)

/-- `ProxyFetch._submit_proof_async`: reads `response.proof`; when it is
present and truthy, builds the `CryptographicProof` record and starts the
detached submission task (returned as `some`), else does nothing. -/
def submitProofAsync (resp : JObj) (toolName : Option String)
    (ac : AttestationConfig) (requestBody : JObj) (requestUrl : String)
    (now : Int) : Option Submission :=
  let toolNameStr := toolName.getD "direct-fetch"
  match alookup resp "proof" with
  | some pv =>
    if truthy pv then
      some
        { record :=
            { tool_name := toolNameStr
              timestamp := now
              request := [("url", JVal.jstr requestUrl), ("body", JVal.jobj requestBody)]
              response := resp
              proof :=
                [("proof", pv),
                 ("onchainProof", (alookup resp "onchainProof").getD JVal.jnull)]
              verified := (alookup resp "verified").getD (JVal.jbool false)
              onchain_compatible := acontains resp "onchainProof" }
          session_id := ac.session_id.getD ("agent-" ++ toolNameStr ++ "-" ++ toString now)
          workflow_stage := ac.workflow_stage.getD "general"
          service_url := ac.service_url
          submitted_by := ac.submitted_by }
    else none
  | none => none

/-- Everything observable about one `_zkfetch_request` call (transport
round trip excluded: the decoded transport response is an input). -/
structure ZkfetchResult where
  payload : ZkPayload
  finalBody : JObj
  finalUrl : String
  callerBody : Option JObj
  returned : JObj
  submission : Option Submission
  submissionLog : String
  deriving DecidableEq

/-- The hidden-parameter extraction block of `_zkfetch_request` (body loop,
then URL loop, sharing `param_values_map`), returning
`(final_body, final_url, param_values_map)`.  It runs only when the resolved
private options carry a `hiddenParameters` key whose value is a list. -/
def zkHidden (zkOptions : ZkfetchToolOptions) (url : String) (body0 : JObj) :
    JObj × List Char × JObj :=
  let private0 : JObj := zkOptions.private_options.getD []
  match alookup private0 "hiddenParameters" with
  | some (JVal.jarr hp) =>
    let bodyRes := hideFromBody hp (body0, [])
    let urlRes := zkRewriteUrl hp url.data bodyRes.2
    (bodyRes.1, urlRes.1, urlRes.2)
  | _ => (body0, url.data, [])

/-- `ProxyFetch._zkfetch_request` for a dict-or-absent body (the declared
parameter type), given the decoded transport response `resp` and the
attestation round-trip outcome `att`.

`final_body = body or \x7b\x7d` binds the caller's own dict when the body is a
truthy dict, so the in-place hidden-parameter writes are visible to the
caller afterwards: `callerBody` is the content of the caller's dict after the
call.  `now` stands for `int(time.time())`.  The attestation outcome feeds
only the logged message of the spawned `submit_task`, whose `try/except`
swallows every failure. -/
def zkfetchRun (cfg : ProxyConfig) (url method : String) (body : Option JObj)
    (resp : JObj) (now : Int) (att : AttResponse) : ZkfetchResult :=
  let toolName := extract_tool_name body
  let zkOptions := resolve_tool_options cfg toolName
  let body0 : JObj := body.getD []
  let private0 : JObj := zkOptions.private_options.getD []
  let hiddenData : JObj × List Char × JObj := zkHidden zkOptions url body0
  let finalBody := hiddenData.1
  let finalUrlChars := hiddenData.2.1
  let pvm := hiddenData.2.2
  let private1 : JObj :=
    if pvm.isEmpty then private0
    else
      apop (apop (aset private0 "paramValues" (JVal.jobj pvm)) "hideRequestBody")
        "hiddenParameters"
  let finalUrl := String.mk finalUrlChars
  let submission :=
    match cfg.attestation_config with
    | some ac =>
      if ac.enabled then submitProofAsync resp toolName ac finalBody finalUrl now
      else none
    | none => none
  { payload :=
      { url := finalUrl
        publicOptions :=
          { method := method
            body := if finalBody.isEmpty then none else some finalBody
            timeout :=
              match zkOptions.public_options with
              | some po => (alookup po "timeout").getD (JVal.jnum 30000)
              | none => JVal.jnum 30000 }
        privateOptions := private1
        redactions := zkOptions.redactions.getD [] }
    finalBody := finalBody
    finalUrl := finalUrl
    callerBody := body.map fun _ => finalBody
    returned := resp
    submission := submission
    submissionLog :=
      match submission with
      | some _ =>
        match submit_proof att with
        | .ok pid => "submitted:" ++ pid
        | .error e => "failed:" ++ e
      | none => "" }

/-! ## Redaction (`apply_redactions` / `_redact_at_path`) -/

/-- Python `path.split(".")`. -/
def pySplitDot (s : String) : List String :=
  (chSplit '.' s.data).map String.mk

/-- The navigation/masking loop of `_redact_at_path` over the already-split
path components: intermediate components navigate into dict fields (missing
key or non-dict: no-op), the last component is overwritten with `"****"` when
its dict key exists. -/
def redactParts (v : JVal) : List String → JVal
  | [] => v
  | p :: rest =>
    match rest, v with
    | [], JVal.jobj fs =>
      if acontains fs p then JVal.jobj (aset fs p (JVal.jstr "****")) else v
    | [], _ => v
    | _ :: _, JVal.jobj fs =>
      match alookup fs p with
      | some w => JVal.jobj (aset fs p (redactParts w rest))
      | none => v
    | _ :: _, _ => v

/-- `_redact_at_path`: split the dot-notation path and run the loop. -/
def redact_at_path (v : JVal) (path : String) : JVal :=
  redactParts v (pySplitDot path)

/-- `apply_redactions`: apply each rule's `path` in order.  A rule without a
`path` key is skipped; a rule whose `path` is not a string makes Python raise
(`.split` on a non-string), modelled as `none`. -/
def apply_redactions (v : JVal) : List JObj → Option JVal
  | [] => some v
  | r :: rest =>
    match alookup r "path" with
    | none => apply_redactions v rest
    | some (JVal.jstr p) => apply_redactions (redactParts v (pySplitDot p)) rest
    | some _ => none

/-- The navigation of `_redact_at_path` succeeds: every intermediate component
names a dict field and the final component is a present dict key. -/
def canRedact (v : JVal) : List String → Bool
  | [] => false
  | p :: rest =>
    match rest, v with
    | [], JVal.jobj fs => acontains fs p
    | [], _ => false
    | _ :: _, JVal.jobj fs =>
      match alookup fs p with
      | some w => canRedact w rest
      | none => false
    | _ :: _, _ => false

/-- Read the subvalue at a dot-path (for frame statements about redaction). -/
def getPath (v : JVal) : List String → Option JVal
  | [] => some v
  | p :: rest =>
    match v with
    | JVal.jobj fs =>
      match alookup fs p with
      | some w => getPath w rest
      | none => none
    | _ => none

/-- `segPre q p`: the segment list `q` is an initial segment of `p`. -/
def segPre : List String → List String → Bool
  | [], _ => true
  | _ :: _, [] => false
  | x :: xs, y :: ys => x = y && segPre xs ys

/-! ## Redaction lemmas -/

theorem redactParts_single_obj (fs : JObj) (p : String) :
    redactParts (JVal.jobj fs) [p] =
      (if acontains fs p then JVal.jobj (aset fs p (JVal.jstr "****"))
       else JVal.jobj fs) := rfl

theorem redactParts_cons_obj (fs : JObj) (p r : String) (rs : List String) :
    redactParts (JVal.jobj fs) (p :: r :: rs) =
      (match alookup fs p with
       | some w => JVal.jobj (aset fs p (redactParts w (r :: rs)))
       | none => JVal.jobj fs) := rfl

theorem redactParts_cons_obj_some (fs : JObj) (p r : String) (rs : List String)
    (w : JVal) (hl : alookup fs p = some w) :
    redactParts (JVal.jobj fs) (p :: r :: rs) =
      JVal.jobj (aset fs p (redactParts w (r :: rs))) := by
  rw [redactParts_cons_obj, hl]

theorem redactParts_cons_obj_none (fs : JObj) (p r : String) (rs : List String)
    (hl : alookup fs p = none) :
    redactParts (JVal.jobj fs) (p :: r :: rs) = JVal.jobj fs := by
  rw [redactParts_cons_obj, hl]

theorem canRedact_single_obj (fs : JObj) (p : String) :
    canRedact (JVal.jobj fs) [p] = acontains fs p := rfl

theorem canRedact_cons_obj (fs : JObj) (p r : String) (rs : List String) :
    canRedact (JVal.jobj fs) (p :: r :: rs) =
      (match alookup fs p with
       | some w => canRedact w (r :: rs)
       | none => false) := rfl

theorem canRedact_cons_obj_some (fs : JObj) (p r : String) (rs : List String)
    (w : JVal) (hl : alookup fs p = some w) :
    canRedact (JVal.jobj fs) (p :: r :: rs) = canRedact w (r :: rs) := by
  rw [canRedact_cons_obj, hl]

theorem getPath_cons_obj (fs : JObj) (a : String) (qs : List String) :
    getPath (JVal.jobj fs) (a :: qs) =
      (match alookup fs a with
       | some w => getPath w qs
       | none => none) := rfl

theorem getPath_cons_obj_some (fs : JObj) (a : String) (qs : List String)
    (w : JVal) (hl : alookup fs a = some w) :
    getPath (JVal.jobj fs) (a :: qs) = getPath w qs := by
  rw [getPath_cons_obj, hl]

theorem canRedact_nonobj (v : JVal) (ps : List String) (hps : ps ≠ [])
    (h : ∀ fs, v ≠ JVal.jobj fs) : canRedact v ps = false := by
  rcases ps with _ | ⟨p, _ | ⟨r, rs⟩⟩
  · exact absurd rfl hps
  all_goals rcases v with _ | b | n | s | xs | fs <;>
    first
      | rfl
      | exact absurd rfl (h fs)

theorem redactParts_nonobj (v : JVal) (ps : List String)
    (h : ∀ fs, v ≠ JVal.jobj fs) : redactParts v ps = v := by
  rcases ps with _ | ⟨p, _ | ⟨r, rs⟩⟩
  · rfl
  all_goals rcases v with _ | b | n | s | xs | fs <;>
    first
      | rfl
      | exact absurd rfl (h fs)

theorem redactParts_of_not_canRedact (ps : List String) (v : JVal)
    (h : canRedact v ps = false) : redactParts v ps = v := by
  induction ps generalizing v with
  | nil => rfl
  | cons p rest ih =>
    cases rest with
    | nil =>
      rcases v with _ | b | n | s | xs | fs <;> try rfl
      rw [canRedact_single_obj] at h
      rw [redactParts_single_obj, h]
      rfl
    | cons r rs =>
      rcases v with _ | b | n | s | xs | fs <;> try rfl
      rcases hl : alookup fs p with _ | w
      · exact redactParts_cons_obj_none fs p r rs hl
      · rw [canRedact_cons_obj_some fs p r rs w hl] at h
        rw [redactParts_cons_obj_some fs p r rs w hl, ih _ h, aset_id fs p w hl]

theorem getPath_redactParts_self (ps : List String) (v : JVal)
    (h : canRedact v ps = true) :
    getPath (redactParts v ps) ps = some (JVal.jstr "****") := by
  induction ps generalizing v with
  | nil => exact absurd h (by simp [canRedact])
  | cons p rest ih =>
    cases rest with
    | nil =>
      rcases v with _ | b | n | s | xs | fs
      all_goals try exact absurd h (by rw [canRedact_nonobj _ _ (by simp)
        (fun fs hh => JVal.noConfusion hh)]; simp)
      rw [canRedact_single_obj] at h
      rw [redactParts_single_obj, if_pos h,
        getPath_cons_obj_some _ _ _ _ (alookup_aset_self fs p (JVal.jstr "****"))]
      rfl
    | cons r rs =>
      rcases v with _ | b | n | s | xs | fs
      all_goals try exact absurd h (by rw [canRedact_nonobj _ _ (by simp)
        (fun fs hh => JVal.noConfusion hh)]; simp)
      rcases hl : alookup fs p with _ | w
      · rw [canRedact_cons_obj, hl] at h
        exact absurd h (by simp)
      · rw [canRedact_cons_obj_some fs p r rs w hl] at h
        rw [redactParts_cons_obj_some fs p r rs w hl,
          getPath_cons_obj_some _ _ _ _ (alookup_aset_self fs p _)]
        exact ih _ h

theorem getPath_redactParts_frame (ps : List String) (v : JVal) (q : List String)
    (h1 : segPre q ps = false) (h2 : segPre ps q = false) :
    getPath (redactParts v ps) q = getPath v q := by
  induction ps generalizing v q with
  | nil => rfl
  | cons p rest ih =>
    cases q with
    | nil => simp [segPre] at h1
    | cons a qs =>
      by_cases hap : a = p
      · subst hap
        have h1' : segPre qs rest = false := by simpa [segPre] using h1
        have h2' : segPre rest qs = false := by simpa [segPre] using h2
        cases rest with
        | nil => simp [segPre] at h2
        | cons r rs =>
          rcases v with _ | b | n | s | xs | fs
          all_goals try rw [redactParts_nonobj _ _ (fun fs hh => JVal.noConfusion hh)]
          rcases hl : alookup fs a with _ | w
          · rw [redactParts_cons_obj_none fs a r rs hl]
          · rw [redactParts_cons_obj_some fs a r rs w hl,
              getPath_cons_obj_some _ _ _ _ (alookup_aset_self fs a _),
              getPath_cons_obj_some _ _ _ _ hl]
            exact ih _ _ h1' h2'
      · cases rest with
        | nil =>
          rcases v with _ | b | n | s | xs | fs
          all_goals try rw [redactParts_nonobj _ _ (fun fs hh => JVal.noConfusion hh)]
          rw [redactParts_single_obj]
          by_cases hc : acontains fs p
          · rw [if_pos hc, getPath_cons_obj, getPath_cons_obj,
              alookup_aset_ne fs p a (JVal.jstr "****") hap]
          · rw [if_neg hc]
        | cons r rs =>
          rcases v with _ | b | n | s | xs | fs
          all_goals try rw [redactParts_nonobj _ _ (fun fs hh => JVal.noConfusion hh)]
          rcases hl : alookup fs p with _ | w
          · rw [redactParts_cons_obj_none fs p r rs hl]
          · rw [redactParts_cons_obj_some fs p r rs w hl,
              getPath_cons_obj, getPath_cons_obj,
              alookup_aset_ne fs p a (redactParts w (r :: rs)) hap]

/-! ## Lemmas about the Python string primitives (for the URL rewrite) -/

theorem chSplit_no_sep (sep : Char) (x : List Char) (h : sep ∉ x) :
    chSplit sep x = [x] := by
  induction x with
  | nil => rfl
  | cons c rest ih =>
    have hc : c ≠ sep := fun hh => h (hh ▸ List.mem_cons_self c rest)
    have hr : sep ∉ rest := fun hh => h (List.mem_cons_of_mem c hh)
    simp only [chSplit, ih hr, if_neg hc]

theorem chSplit_cons (sep c : Char) (l : List Char) :
    chSplit sep (c :: l) =
      (if c = sep then [] :: chSplit sep l
       else
         match chSplit sep l with
         | h :: t => (c :: h) :: t
         | [] => [[c]]) := rfl

theorem chSplit_append (sep : Char) (x rest : List Char) (h : sep ∉ x) :
    chSplit sep (x ++ sep :: rest) = x :: chSplit sep rest := by
  induction x with
  | nil => simp [chSplit_cons]
  | cons c x ih =>
    have hc : c ≠ sep := fun hh => h (hh ▸ List.mem_cons_self c x)
    have hx : sep ∉ x := fun hh => h (List.mem_cons_of_mem c hh)
    rw [List.cons_append, chSplit_cons, if_neg hc, ih hx]

theorem chSplit_interAmp (parts : List (List Char)) (hne : parts ≠ [])
    (h : ∀ x ∈ parts, '&' ∉ x) :
    chSplit '&' (interAmp parts) = parts := by
  induction parts with
  | nil => exact absurd rfl hne
  | cons x xs ih =>
    cases xs with
    | nil => exact chSplit_no_sep '&' x (h x (List.mem_cons_self _ _))
    | cons y ys =>
      have hi : interAmp (x :: y :: ys) = x ++ '&' :: interAmp (y :: ys) := rfl
      rw [hi, chSplit_append '&' x _ (h x (List.mem_cons_self _ _)),
        ih (by simp) (fun z hz => h z (List.mem_cons_of_mem _ hz))]

theorem chBreakFirst_append (sep : Char) (k v : List Char) (h : sep ∉ k) :
    chBreakFirst sep (k ++ sep :: v) = (k, some v) := by
  induction k with
  | nil => simp [chBreakFirst]
  | cons c k ih =>
    have hc : c ≠ sep := fun hh => h (hh ▸ List.mem_cons_self c k)
    have hk : sep ∉ k := fun hh => h (List.mem_cons_of_mem c hh)
    simp [chBreakFirst, if_neg hc, ih hk]

theorem plusToSpace_id (v : List Char) (h : '+' ∉ v) : plusToSpace v = v := by
  induction v with
  | nil => rfl
  | cons c rest ih =>
    have hc : c ≠ '+' := fun hh => h (hh ▸ List.mem_cons_self c rest)
    have hr : '+' ∉ rest := fun hh => h (List.mem_cons_of_mem c hh)
    simp only [plusToSpace, List.map_cons, if_neg hc]
    exact congrArg (c :: ·) (by simpa [plusToSpace] using ih hr)

theorem pyUnquote_cons_ne (c : Char) (rest : List Char) (hc : c ≠ '%') :
    pyUnquote (c :: rest) = c :: pyUnquote rest := by
  rcases rest with _ | ⟨a, _ | ⟨b, rest2⟩⟩ <;> simp [pyUnquote, hc]

theorem pyUnquote_id (v : List Char) (h : '%' ∉ v) : pyUnquote v = v := by
  induction v with
  | nil => rfl
  | cons c rest ih =>
    have hc : c ≠ '%' := fun hh => h (hh ▸ List.mem_cons_self c rest)
    have hr : '%' ∉ rest := fun hh => h (List.mem_cons_of_mem c hh)
    rw [pyUnquote_cons_ne c rest hc, ih hr]

theorem unquotePlus_id (v : List Char) (hp : '%' ∉ v) (hpl : '+' ∉ v) :
    unquotePlus v = v := by
  rw [unquotePlus, plusToSpace_id v hpl, pyUnquote_id v hp]

/-- A query-string pair is "clean" when its raw text is parsed back verbatim:
non-empty name without separators or escapes, value without separators or
escapes (`'='` may appear in the value). -/
def cleanPair (kv : List Char × List Char) : Prop :=
  kv.1 ≠ [] ∧ '&' ∉ kv.1 ∧ '=' ∉ kv.1 ∧ '%' ∉ kv.1 ∧ '+' ∉ kv.1 ∧
    '&' ∉ kv.2 ∧ '%' ∉ kv.2 ∧ '+' ∉ kv.2

instance (kv : List Char × List Char) : Decidable (cleanPair kv) := by
  unfold cleanPair
  infer_instance

theorem qsl_clean (pairs : List (List Char × List Char)) (hne : pairs ≠ [])
    (hclean : ∀ kv ∈ pairs, cleanPair kv) :
    qsl (interAmp (pairs.map fun kv => kv.1 ++ '=' :: kv.2)) = pairs := by
  have hamp : ∀ x ∈ pairs.map (fun kv => kv.1 ++ '=' :: kv.2), '&' ∉ x := by
    intro x hx
    rw [List.mem_map] at hx
    obtain ⟨kv, hkv, rfl⟩ := hx
    obtain ⟨hk1, hk2, hk3, hk4, hk5, hv1, hv2, hv3⟩ := hclean kv hkv
    intro hm
    rcases List.mem_append.mp hm with hm | hm
    · exact hk2 hm
    · rcases List.mem_cons.mp hm with hm | hm
      · exact absurd hm (by decide)
      · exact hv1 hm
  unfold qsl
  rw [chSplit_interAmp _ (by simpa using hne) hamp, List.filterMap_map]
  clear hne hamp
  induction pairs with
  | nil => rfl
  | cons kv rest ih =>
    obtain ⟨hk1, hk2, hk3, hk4, hk5, hv1, hv2, hv3⟩ :=
      hclean kv (List.mem_cons_self _ _)
    rw [List.filterMap_cons]
    have hb : chBreakFirst '=' (kv.1 ++ '=' :: kv.2) = (kv.1, some kv.2) :=
      chBreakFirst_append '=' kv.1 kv.2 hk3
    have hno : (kv.1 ++ '=' :: kv.2).isEmpty = false := by
      cases kv.1 <;> rfl
    simp only [Function.comp_apply, hno, Bool.false_eq_true, if_false, hb,
      unquotePlus_id kv.1 hk4 hk5, unquotePlus_id kv.2 hv2 hv3]
    rw [ih (fun kv2 h2 => hclean kv2 (List.mem_cons_of_mem _ h2))]

theorem addPair_fresh (acc : List (List Char × List (List Char)))
    (k v : List Char) (h : ∀ g ∈ acc, g.1 ≠ k) :
    addPair acc k v = acc ++ [(k, [v])] := by
  induction acc with
  | nil => rfl
  | cons g rest ih =>
    obtain ⟨k1, vs⟩ := g
    have hk : k1 ≠ k := h (k1, vs) (List.mem_cons_self _ _)
    simp only [addPair, if_neg hk, List.cons_append]
    rw [ih (fun g2 h2 => h g2 (List.mem_cons_of_mem _ h2))]

theorem foldl_addPair (pairs : List (List Char × List Char))
    (acc : List (List Char × List (List Char)))
    (hkeys : (pairs.map Prod.fst).Nodup)
    (hdis : ∀ kv ∈ pairs, ∀ g ∈ acc, g.1 ≠ kv.1) :
    pairs.foldl (fun acc kv => addPair acc kv.1 kv.2) acc =
      acc ++ pairs.map fun kv => (kv.1, [kv.2]) := by
  induction pairs generalizing acc with
  | nil => simp
  | cons kv rest ih =>
    rw [List.foldl_cons,
      addPair_fresh acc kv.1 kv.2 (fun g hg => hdis kv (List.mem_cons_self _ _) g hg)]
    simp only [List.map_cons, List.nodup_cons] at hkeys
    rw [ih (acc ++ [(kv.1, [kv.2])]) hkeys.2]
    · simp
    · intro kv2 h2 g hg
      rcases List.mem_append.mp hg with hg | hg
      · exact hdis kv2 (List.mem_cons_of_mem _ h2) g hg
      · rcases List.mem_cons.mp hg with hg | hg
        · rw [hg]
          intro he
          exact hkeys.1 (he ▸ List.mem_map.mpr ⟨kv2, h2, rfl⟩)
        · simp at hg

theorem parse_qs_clean (pairs : List (List Char × List Char)) (hne : pairs ≠ [])
    (hclean : ∀ kv ∈ pairs, cleanPair kv)
    (hkeys : (pairs.map Prod.fst).Nodup) :
    parse_qs (interAmp (pairs.map fun kv => kv.1 ++ '=' :: kv.2)) =
      pairs.map fun kv => (kv.1, [kv.2]) := by
  unfold parse_qs
  rw [qsl_clean pairs hne hclean,
    foldl_addPair pairs [] hkeys (fun kv _ g hg => absurd hg (by simp))]
  rfl

theorem rewriteStep_eq (hidden : List JVal) (parts : List (List Char)) (pvm : JObj)
    (m : Bool) (key : List Char) (values : List (List Char)) :
    rewriteStep hidden (parts, pvm, m) (key, values) =
      if hidden.contains (JVal.jstr (String.mk key)) then
        (parts ++ [key ++ '=' :: '\x7b' :: '\x7b' :: (key ++ ['\x7d', '\x7d'])],
         aset pvm (String.mk key)
           (JVal.jstr (String.mk
             (match values with
              | v :: _ => pyUnquote v
              | [] => []))),
         true)
      else (parts ++ values.map (fun v => key ++ '=' :: v), pvm, m) := rfl

/-- The query rewrite loop over groups none of whose keys are hidden emits all
pairs verbatim and records nothing. -/
theorem rewriteLoop_nohidden (hidden : List JVal)
    (groups : List (List Char × List Char)) (parts0 : List (List Char))
    (pvm0 : JObj) (m0 : Bool)
    (h : ∀ kv ∈ groups, hidden.contains (JVal.jstr (String.mk kv.1)) = false) :
    (groups.map fun kv => (kv.1, [kv.2])).foldl (rewriteStep hidden)
        (parts0, pvm0, m0) =
      (parts0 ++ groups.map (fun kv => kv.1 ++ '=' :: kv.2), pvm0, m0) := by
  induction groups generalizing parts0 with
  | nil => simp
  | cons kv rest ih =>
    rw [List.map_cons, List.foldl_cons, rewriteStep_eq,
      if_neg (by rw [h kv (List.mem_cons_self _ _)]; simp),
      ih _ (fun kv2 h2 => h kv2 (List.mem_cons_of_mem _ h2))]
    simp

/-- The query rewrite loop with exactly one hidden key present: that pair is
replaced by the double-brace placeholder and its re-decoded first value is
recorded; every other pair is emitted verbatim in order. -/
theorem rewriteLoop_one_hidden (hidden : List JVal)
    (groups : List (List Char × List Char)) (p vp : List Char)
    (parts0 : List (List Char)) (pvm0 : JObj) (m0 : Bool)
    (hkeys : (groups.map Prod.fst).Nodup)
    (hmem : (p, vp) ∈ groups)
    (hhid : hidden.contains (JVal.jstr (String.mk p)) = true)
    (hothers : ∀ kv ∈ groups, kv.1 ≠ p →
      hidden.contains (JVal.jstr (String.mk kv.1)) = false) :
    (groups.map fun kv => (kv.1, [kv.2])).foldl (rewriteStep hidden)
        (parts0, pvm0, m0) =
      (parts0 ++ groups.map (fun kv =>
          if kv.1 = p then kv.1 ++ '=' :: '\x7b' :: '\x7b' :: (kv.1 ++ ['\x7d', '\x7d'])
          else kv.1 ++ '=' :: kv.2),
       aset pvm0 (String.mk p) (JVal.jstr (String.mk (pyUnquote vp))), true) := by
  induction groups generalizing parts0 pvm0 m0 with
  | nil => simp at hmem
  | cons kv rest ih =>
    simp only [List.map_cons, List.nodup_cons] at hkeys
    rw [List.map_cons, List.foldl_cons, rewriteStep_eq]
    by_cases hkp : kv.1 = p
    · have hv : kv.2 = vp := by
        rcases List.mem_cons.mp hmem with hm | hm
        · rw [← hm]
        · exact absurd (List.mem_map.mpr ⟨(p, vp), hm, rfl⟩) (hkp ▸ hkeys.1)
      have hrest : ∀ kv2 ∈ rest, hidden.contains (JVal.jstr (String.mk kv2.1)) = false := by
        intro kv2 h2
        refine hothers kv2 (List.mem_cons_of_mem _ h2) (fun he => ?_)
        exact (hkp ▸ hkeys.1) (he ▸ List.mem_map.mpr ⟨kv2, h2, rfl⟩)
      rw [if_pos (by rw [hkp]; exact hhid), rewriteLoop_nohidden hidden rest _ _ _ hrest]
      have hmap : rest.map (fun kv2 => kv2.1 ++ '=' :: kv2.2) =
          rest.map (fun kv2 =>
            if kv2.1 = p then
              kv2.1 ++ '=' :: '\x7b' :: '\x7b' :: (kv2.1 ++ ['\x7d', '\x7d'])
            else kv2.1 ++ '=' :: kv2.2) := by
        apply List.map_congr_left
        intro kv2 h2
        have : kv2.1 ≠ p := fun he =>
          (hkp ▸ hkeys.1) (he ▸ List.mem_map.mpr ⟨kv2, h2, rfl⟩)
        rw [if_neg this]
      rw [hmap] at *
      simp [hkp, hv, List.append_assoc]
    · have hstep : hidden.contains (JVal.jstr (String.mk kv.1)) = false :=
        hothers kv (List.mem_cons_self _ _) hkp
      rw [if_neg (by rw [hstep]; simp),
        ih _ _ _ hkeys.2 (by
          rcases List.mem_cons.mp hmem with hm | hm
          · exact absurd (congrArg Prod.fst hm.symm) hkp
          · exact hm)
        (fun kv2 h2 hne => hothers kv2 (List.mem_cons_of_mem _ h2) hne)]
      simp [if_neg hkp, List.append_assoc]

/-! ## Idempotence of redaction

`destr v w` says `w` arises from `v` by replacing some whole subvalues with
the mask token `"****"` — the only kind of change a redaction pass makes.
A value on which a rule is a fixed point stays a fixed point under such
changes, which gives idempotence of a whole rule list. -/

mutual
def destr : JVal → JVal → Bool
  | v, JVal.jstr s => if s = "****" then true else jeq v (JVal.jstr s)
  | JVal.jobj fs, JVal.jobj gs => destrObj fs gs
  | v, w => jeq v w

def destrObj : List (String × JVal) → List (String × JVal) → Bool
  | [], [] => true
  | (k, v) :: fs, (k2, w) :: gs => k == k2 && destr v w && destrObj fs gs
  | _, _ => false
end

theorem destr_str (v : JVal) (s : String) :
    destr v (JVal.jstr s) = if s = "****" then true else jeq v (JVal.jstr s) := by
  cases v <;> rfl

theorem destr_obj (fs gs : List (String × JVal)) :
    destr (JVal.jobj fs) (JVal.jobj gs) = destrObj fs gs := rfl

theorem destrObj_cons (k k2 : String) (v w : JVal)
    (fs gs : List (String × JVal)) :
    destrObj ((k, v) :: fs) ((k2, w) :: gs) =
      (k == k2 && destr v w && destrObj fs gs) := rfl

theorem destr_mask (v : JVal) : destr v (JVal.jstr "****") = true := by
  rw [destr_str]
  rfl

mutual
theorem destr_refl : ∀ v : JVal, destr v v = true
  | JVal.jnull => rfl
  | JVal.jbool b => (jeq_iff _ _).mpr rfl
  | JVal.jnum n => (jeq_iff _ _).mpr rfl
  | JVal.jstr s => by
    rw [destr_str]
    by_cases h : s = "****"
    · rw [if_pos h]
    · rw [if_neg h]
      exact (jeq_iff _ _).mpr rfl
  | JVal.jarr xs => (jeq_iff _ _).mpr rfl
  | JVal.jobj fs => by
    rw [destr_obj]
    exact destrObj_refl fs

theorem destrObj_refl : ∀ fs : List (String × JVal), destrObj fs fs = true
  | [] => rfl
  | (k, v) :: fs => by
    rw [destrObj_cons]
    simp [destr_refl v, destrObj_refl fs]
end

theorem destr_mask_src (w : JVal) (h : destr (JVal.jstr "****") w = true) :
    w = JVal.jstr "****" := by
  rcases w with _ | b | n | s | xs | gs
  case jstr =>
    rw [destr_str] at h
    by_cases hs : s = "****"
    · rw [hs]
    · rw [if_neg hs] at h
      exact ((jeq_iff _ _).mp h).symm
  all_goals exact absurd ((jeq_iff _ _).mp h) (by simp)

theorem aset_eq_self {α : Type} (fs : List (String × α)) (k : String) (x : α)
    (h : aset fs k x = fs) : alookup fs k = some x := by
  induction fs with
  | nil => simp [aset] at h
  | cons kv rest ih =>
    obtain ⟨k1, v1⟩ := kv
    by_cases hk : k1 = k
    · subst hk
      simp [aset] at h
      simp [alookup, h]
    · simp only [aset, if_neg hk, List.cons.injEq] at h
      simp only [alookup, if_neg hk]
      exact ih h.2

theorem destrObj_lookup : ∀ fs gs : List (String × JVal),
    destrObj fs gs = true → ∀ k : String,
    (alookup fs k = none ∧ alookup gs k = none) ∨
    (∃ v w, alookup fs k = some v ∧ alookup gs k = some w ∧ destr v w = true)
  | [], [], _, _ => Or.inl ⟨rfl, rfl⟩
  | [], (k2, w) :: gs, h, k => by simp [destrObj] at h
  | (k1, v) :: fs, [], h, k => by simp [destrObj] at h
  | (k1, v) :: fs, (k2, w) :: gs, h, k => by
    rw [destrObj_cons] at h
    simp only [Bool.and_eq_true, beq_iff_eq] at h
    obtain ⟨⟨hk, hd⟩, hrest⟩ := h
    subst hk
    by_cases hkk : k1 = k
    · exact Or.inr ⟨v, w, by simp [alookup, hkk], by simp [alookup, hkk], hd⟩
    · have hrec := destrObj_lookup fs gs hrest k
      simpa [alookup, hkk] using hrec

theorem destrObj_aset (fs : List (String × JVal)) (k : String) (v x : JVal)
    (hl : alookup fs k = some v) (hd : destr v x = true) :
    destrObj fs (aset fs k x) = true := by
  induction fs with
  | nil => simp [alookup] at hl
  | cons kv rest ih =>
    obtain ⟨k1, v1⟩ := kv
    by_cases hk : k1 = k
    · subst hk
      simp only [alookup, if_true, eq_self_iff_true, if_pos, Option.some.injEq] at hl
      subst hl
      have ha : aset ((k1, v1) :: rest) k1 x = (k1, x) :: rest := by
        simp [aset]
      rw [ha, destrObj_cons]
      simp [hd, destrObj_refl rest]
    · simp only [alookup, if_neg hk] at hl
      simp only [aset, if_neg hk]
      rw [destrObj_cons]
      simp [destr_refl v1, ih hl]

/-- One redaction pass only performs destructive masking. -/
theorem destr_redactParts (ps : List String) (v : JVal) :
    destr v (redactParts v ps) = true := by
  induction ps generalizing v with
  | nil => exact destr_refl v
  | cons p rest ih =>
    cases rest with
    | nil =>
      rcases v with _ | b | n | s | xs | fs
      all_goals try
        (rw [redactParts_nonobj _ _ (fun fs hh => JVal.noConfusion hh)]
         exact destr_refl _)
      rw [redactParts_single_obj]
      by_cases hc : acontains fs p
      · rw [if_pos hc, destr_obj]
        obtain ⟨w, hw⟩ := Option.isSome_iff_exists.mp hc
        exact destrObj_aset fs p w _ hw (destr_mask _)
      · rw [if_neg hc]
        exact destr_refl _
    | cons r rs =>
      rcases v with _ | b | n | s | xs | fs
      all_goals try
        (rw [redactParts_nonobj _ _ (fun fs hh => JVal.noConfusion hh)]
         exact destr_refl _)
      rcases hl : alookup fs p with _ | w
      · rw [redactParts_cons_obj_none fs p r rs hl]
        exact destr_refl _
      · rw [redactParts_cons_obj_some fs p r rs w hl, destr_obj]
        exact destrObj_aset fs p w _ hl (ih w)

/-- A fixed point of one rule stays a fixed point under destructive masking. -/
theorem done_destr (ps : List String) (v w : JVal)
    (hv : redactParts v ps = v) (hd : destr v w = true) :
    redactParts w ps = w := by
  induction ps generalizing v w with
  | nil => rfl
  | cons p rest ih =>
    cases rest with
    | nil =>
      rcases w with _ | b | n | s | xs | gs
      all_goals try exact redactParts_nonobj _ _ (fun fs hh => JVal.noConfusion hh)
      rcases v with _ | b | n | s | xs | fs
      all_goals try exact absurd ((jeq_iff _ _).mp hd) (by simp)
      rw [destr_obj] at hd
      rw [redactParts_single_obj]
      by_cases hcg : acontains gs p
      · rw [if_pos hcg]
        obtain ⟨w', hw'⟩ := Option.isSome_iff_exists.mp hcg
        rcases destrObj_lookup fs gs hd p with ⟨hn1, hn2⟩ | ⟨v', w'', hv', hw'', hdv⟩
        · rw [hw'] at hn2
          cases hn2
        · have hcf : acontains fs p = true := by
            rw [acontains, hv']
            rfl
          rw [redactParts_single_obj, if_pos hcf] at hv
          injection hv with hv
          have hvm : alookup fs p = some (JVal.jstr "****") := aset_eq_self _ _ _ hv
          rw [hv'] at hvm
          injection hvm with hvm
          rw [hvm] at hdv
          have hwm : w'' = JVal.jstr "****" := destr_mask_src _ hdv
          rw [hwm] at hw''
          congr 1
          exact aset_id _ _ _ hw''
      · rw [if_neg hcg]
    | cons r rs =>
      rcases w with _ | b | n | s | xs | gs
      all_goals try exact redactParts_nonobj _ _ (fun fs hh => JVal.noConfusion hh)
      rcases v with _ | b | n | s | xs | fs
      all_goals try exact absurd ((jeq_iff _ _).mp hd) (by simp)
      rw [destr_obj] at hd
      rcases hlg : alookup gs p with _ | w'
      · exact redactParts_cons_obj_none gs p r rs hlg
      · rcases destrObj_lookup fs gs hd p with ⟨hn1, hn2⟩ | ⟨v', w'', hv', hw'', hdv⟩
        · rw [hlg] at hn2
          cases hn2
        · rw [hlg] at hw''
          injection hw'' with hw''
          rw [redactParts_cons_obj_some fs p r rs v' hv'] at hv
          injection hv with hv
          have hvm : alookup fs p = some (redactParts v' (r :: rs)) :=
            aset_eq_self _ _ _ hv
          rw [hv'] at hvm
          injection hvm with hvm
          have hdone : redactParts w' (r :: rs) = w' := by
            rw [hw'']
            exact ih v' w'' hvm.symm hdv
          rw [redactParts_cons_obj_some gs p r rs w' hlg, hdone]
          congr 1
          exact aset_id _ _ _ hlg

/-- One redaction pass is idempotent for a single rule. -/
theorem redactParts_idem (ps : List String) (v : JVal) :
    redactParts (redactParts v ps) ps = redactParts v ps := by
  induction ps generalizing v with
  | nil => rfl
  | cons p rest ih =>
    cases rest with
    | nil =>
      rcases v with _ | b | n | s | xs | fs
      all_goals try
        rw [redactParts_nonobj _ _ (fun fs hh => JVal.noConfusion hh),
          redactParts_nonobj _ _ (fun fs hh => JVal.noConfusion hh)]
      rw [redactParts_single_obj]
      by_cases hc : acontains fs p
      · rw [if_pos hc, redactParts_single_obj]
        have hx : acontains (aset fs p (JVal.jstr "****")) p = true := by
          rw [acontains, alookup_aset_self]
          rfl
        rw [if_pos hx]
        congr 1
        exact aset_id _ _ _ (alookup_aset_self fs p _)
      · rw [if_neg hc, redactParts_single_obj, if_neg hc]
    | cons r rs =>
      rcases v with _ | b | n | s | xs | fs
      all_goals try
        rw [redactParts_nonobj _ _ (fun fs hh => JVal.noConfusion hh),
          redactParts_nonobj _ _ (fun fs hh => JVal.noConfusion hh)]
      rcases hl : alookup fs p with _ | w
      · rw [redactParts_cons_obj_none fs p r rs hl,
          redactParts_cons_obj_none fs p r rs hl]
      · rw [redactParts_cons_obj_some fs p r rs w hl,
          redactParts_cons_obj_some _ p r rs _ (alookup_aset_self fs p _), ih w]
        congr 1
        exact aset_id _ _ _ (alookup_aset_self fs p _)

theorem apply_redactions_cons (v : JVal) (r : JObj) (rest : List JObj) :
    apply_redactions v (r :: rest) =
      (match alookup r "path" with
       | none => apply_redactions v rest
       | some (JVal.jstr p) => apply_redactions (redactParts v (pySplitDot p)) rest
       | some _ => none) := rfl

theorem apply_redactions_cons_none (v : JVal) (r : JObj) (rest : List JObj)
    (hp : alookup r "path" = none) :
    apply_redactions v (r :: rest) = apply_redactions v rest := by
  rw [apply_redactions_cons, hp]

theorem apply_redactions_cons_str (v : JVal) (r : JObj) (rest : List JObj)
    (p : String) (hp : alookup r "path" = some (JVal.jstr p)) :
    apply_redactions v (r :: rest) =
      apply_redactions (redactParts v (pySplitDot p)) rest := by
  rw [apply_redactions_cons, hp]

/-- A fixed point of one rule is still a fixed point after a whole pass. -/
theorem done_apply (rs : List JObj) (ps : List String) (v w : JVal)
    (hv : redactParts v ps = v) (h : apply_redactions v rs = some w) :
    redactParts w ps = w := by
  induction rs generalizing v with
  | nil =>
    simp only [apply_redactions, Option.some.injEq] at h
    exact h ▸ hv
  | cons r rest ih =>
    rcases hp : alookup r "path" with _ | pv
    · rw [apply_redactions_cons_none _ _ _ hp] at h
      exact ih _ hv h
    · rcases pv with _ | b | n | s | xs | fs
      · rw [apply_redactions_cons, hp] at h
        simp at h
      · rw [apply_redactions_cons, hp] at h
        simp at h
      · rw [apply_redactions_cons, hp] at h
        simp at h
      · rw [apply_redactions_cons_str _ _ _ _ hp] at h
        exact ih _ (done_destr ps v _ hv (destr_redactParts _ v)) h
      · rw [apply_redactions_cons, hp] at h
        simp at h
      · rw [apply_redactions_cons, hp] at h
        simp at h

/-! ## Projection lemmas for `zkfetchRun` -/

theorem zkfetchRun_returned (cfg : ProxyConfig) (url method : String)
    (body : Option JObj) (resp : JObj) (now : Int) (att : AttResponse) :
    (zkfetchRun cfg url method body resp now att).returned = resp := rfl

theorem zkfetchRun_finalBody (cfg : ProxyConfig) (url method : String)
    (body : Option JObj) (resp : JObj) (now : Int) (att : AttResponse) :
    (zkfetchRun cfg url method body resp now att).finalBody =
      (zkHidden (resolve_tool_options cfg (extract_tool_name body)) url
        (body.getD [])).1 := rfl

theorem zkfetchRun_finalUrl (cfg : ProxyConfig) (url method : String)
    (body : Option JObj) (resp : JObj) (now : Int) (att : AttResponse) :
    (zkfetchRun cfg url method body resp now att).finalUrl =
      String.mk (zkHidden (resolve_tool_options cfg (extract_tool_name body)) url
        (body.getD [])).2.1 := rfl

theorem zkfetchRun_callerBody (cfg : ProxyConfig) (url method : String)
    (body : Option JObj) (resp : JObj) (now : Int) (att : AttResponse) :
    (zkfetchRun cfg url method body resp now att).callerBody =
      body.map (fun _ => (zkfetchRun cfg url method body resp now att).finalBody) := rfl

theorem zkfetchRun_submission (cfg : ProxyConfig) (url method : String)
    (body : Option JObj) (resp : JObj) (now : Int) (att : AttResponse) :
    (zkfetchRun cfg url method body resp now att).submission =
      match cfg.attestation_config with
      | some ac =>
        if ac.enabled then
          submitProofAsync resp (extract_tool_name body) ac
            (zkfetchRun cfg url method body resp now att).finalBody
            (zkfetchRun cfg url method body resp now att).finalUrl now
        else none
      | none => none := rfl

theorem zkfetchRun_payload_body (cfg : ProxyConfig) (url method : String)
    (body : Option JObj) (resp : JObj) (now : Int) (att : AttResponse) :
    (zkfetchRun cfg url method body resp now att).payload.publicOptions.body =
      (if (zkfetchRun cfg url method body resp now att).finalBody.isEmpty then none
       else some (zkfetchRun cfg url method body resp now att).finalBody) := rfl

theorem zkfetchRun_privateOptions (cfg : ProxyConfig) (url method : String)
    (body : Option JObj) (resp : JObj) (now : Int) (att : AttResponse) :
    (zkfetchRun cfg url method body resp now att).payload.privateOptions =
      (let private0 :=
        (resolve_tool_options cfg (extract_tool_name body)).private_options.getD []
       let pvm := (zkHidden (resolve_tool_options cfg (extract_tool_name body)) url
        (body.getD [])).2.2
       if pvm.isEmpty then private0
       else
         apop (apop (aset private0 "paramValues" (JVal.jobj pvm)) "hideRequestBody")
           "hiddenParameters") := rfl

/-! ## Claim C3 -/

/-- C3: for a zkfetch request that succeeded at the transport (decoded
response `resp`), every outcome of the attestation submission — connection
error, non-2xx status, or missing `proof_id` — leaves the value returned to
the caller equal to `resp`, identical across outcomes; the run is total, so
no error reaches the caller's control flow. -/
theorem attestation_failures_isolated (cfg : ProxyConfig) (url method : String)
    (body : Option JObj) (resp : JObj) (now : Int) (att att' : AttResponse) :
    (zkfetchRun cfg url method body resp now att).returned = resp ∧
    (zkfetchRun cfg url method body resp now att).returned =
      (zkfetchRun cfg url method body resp now att').returned :=
  ⟨rfl, rfl⟩

/-! ## Claim C5 -/

/-- C5 (amended): resolution always returns a `ZkfetchToolOptions` (it is a
total function); it returns the per-tool entry when the tool name is present,
NON-EMPTY, and a key of the tool-options map; and for every tool name not
present in the map it returns the configured default, or empty options when
no default is configured. -/
theorem resolve_tool_options_spec (cfg : ProxyConfig) (toolName : Option String) :
    (∀ n m o, toolName = some n → n ≠ "" → cfg.tool_options_map = some m →
      alookup m n = some o → resolve_tool_options cfg toolName = o) ∧
    ((∀ n m, toolName = some n → cfg.tool_options_map = some m →
        alookup m n = none) →
      resolve_tool_options cfg toolName = cfg.default_zk_options.getD {}) := by
  constructor
  · rintro n m o rfl hne hm hl
    simp [resolve_tool_options, hm, hne, hl]
  · intro h
    unfold resolve_tool_options
    rcases toolName with _ | n
    · cases cfg.default_zk_options <;> simp
    · rcases hm : cfg.tool_options_map with _ | m
      · cases cfg.default_zk_options <;> simp
      · by_cases hne : n = ""
        · subst hne
          cases cfg.default_zk_options <;> simp
        · have hl := h n m rfl hm
          cases cfg.default_zk_options <;> simp [hne, hl]

/-- C5 witness: a present non-empty key resolves to its entry; an absent key
resolves to empty options when no default is configured. -/
theorem resolve_tool_options_spec_witness :
    resolve_tool_options
        { url := "u",
          tool_options_map := some
            [("t", { redactions := some [[("path", JVal.jstr "x")]] })] }
        (some "t") =
      { redactions := some [[("path", JVal.jstr "x")]] } ∧
    resolve_tool_options
        { url := "u",
          tool_options_map := some
            [("t", { redactions := some [[("path", JVal.jstr "x")]] })] }
        (some "zz") = {} := by
  constructor
  · exact (resolve_tool_options_spec _ _).1 "t" _ _ rfl (by decide) rfl (by decide)
  · exact (resolve_tool_options_spec _ _).2
      (fun n m hn hm => by cases hn; cases hm; decide)

/-- C5 counterexample: the empty string is falsy in Python, so a tool named
`""` that IS a key of the tool-options map does not resolve to its entry —
the guard `if tool_name and ...` skips the lookup and falls through to the
(absent) default, returning empty options instead. -/
theorem resolve_tool_options_cex :
    resolve_tool_options
        { url := "u",
          tool_options_map := some
            [("", { redactions := some [[("path", JVal.jstr "x")]] })] }
        (some "") ≠
      ({ redactions := some [[("path", JVal.jstr "x")]] } : ZkfetchToolOptions) ∧
    resolve_tool_options
        { url := "u",
          tool_options_map := some
            [("", { redactions := some [[("path", JVal.jstr "x")]] })] }
        (some "") = {} := by
  constructor
  · decide
  · decide

/-! ## Claim C6 -/

/-- C6: when the transport response has no `proof` field, no submission task
is started (hence no proof record is produced), and the tool result is still
returned to the caller unchanged — this is not an error. -/
theorem no_proof_field_no_submission (cfg : ProxyConfig) (url method : String)
    (body : Option JObj) (resp : JObj) (now : Int) (att : AttResponse)
    (h : alookup resp "proof" = none) :
    (zkfetchRun cfg url method body resp now att).submission = none ∧
    (zkfetchRun cfg url method body resp now att).returned = resp := by
  refine ⟨?_, rfl⟩
  rw [zkfetchRun_submission]
  rcases cfg.attestation_config with _ | ac
  · rfl
  · by_cases he : ac.enabled <;> simp [he, submitProofAsync, h]

/-- C6 witness: attestation configured and enabled, response without `proof`. -/
theorem no_proof_field_no_submission_witness :
    (zkfetchRun
        { url := "http://p", proxy_type := "zkfetch",
          attestation_config := some { service_url := "http://att" } }
        "http://api" "POST" (some [("q", JVal.jstr "v")])
        [("data", JVal.jstr "ok")] 3 (AttResponse.netError "x")).submission = none ∧
    (zkfetchRun
        { url := "http://p", proxy_type := "zkfetch",
          attestation_config := some { service_url := "http://att" } }
        "http://api" "POST" (some [("q", JVal.jstr "v")])
        [("data", JVal.jstr "ok")] 3 (AttResponse.netError "x")).returned =
      [("data", JVal.jstr "ok")] :=
  no_proof_field_no_submission _ _ _ _ _ _ _ (by decide)

/-! ## Claim C7 -/

/-- C7: redaction is idempotent — whenever a rule list applies successfully
(every rule's `path` entry, if present, is a string), applying it a second
time to the result changes nothing: an already-masked field is rewritten from
`"****"` to `"****"` and destroyed intermediate nodes make deeper rules
no-ops. -/
theorem apply_redactions_idem (v w : JVal) (rules : List JObj)
    (h : apply_redactions v rules = some w) :
    apply_redactions w rules = some w := by
  induction rules generalizing v with
  | nil => rfl
  | cons r rest ih =>
    rcases hp : alookup r "path" with _ | pv
    · rw [apply_redactions_cons_none _ _ _ hp] at h ⊢
      exact ih _ h
    · rcases pv with _ | b | n | s | xs | fs
      · rw [apply_redactions_cons, hp] at h
        simp at h
      · rw [apply_redactions_cons, hp] at h
        simp at h
      · rw [apply_redactions_cons, hp] at h
        simp at h
      · rw [apply_redactions_cons_str _ _ _ _ hp] at h ⊢
        rw [done_apply rest (pySplitDot s) _ w (redactParts_idem _ _) h]
        exact ih _ h
      · rw [apply_redactions_cons, hp] at h
        simp at h
      · rw [apply_redactions_cons, hp] at h
        simp at h

/-- C7 witness: applying the spec's card-number rule a second time leaves the
once-masked structure unchanged. -/
theorem apply_redactions_idem_witness :
    apply_redactions
      (JVal.jobj [("response", JVal.jobj [("data", JVal.jobj
        [("card_number", JVal.jstr "****"), ("status", JVal.jstr "ok")])])])
      [[("path", JVal.jstr "response.data.card_number")]] =
    some (JVal.jobj [("response", JVal.jobj [("data", JVal.jobj
      [("card_number", JVal.jstr "****"), ("status", JVal.jstr "ok")])])]) :=
  apply_redactions_idem
    (JVal.jobj [("response", JVal.jobj [("data", JVal.jobj
      [("card_number", JVal.jstr "4111"), ("status", JVal.jstr "ok")])])])
    (JVal.jobj [("response", JVal.jobj [("data", JVal.jobj
      [("card_number", JVal.jstr "****"), ("status", JVal.jstr "ok")])])])
    [[("path", JVal.jstr "response.data.card_number")]] (by decide)

/-! ## Claim C8 -/

/-- C8: `_redact_at_path` changes at most the value at the final path segment
and never raises.  (i) When any intermediate segment is missing or does not
name a mapping, or the final segment is absent (`canRedact` is false), the
value is returned unchanged.  (ii) When navigation succeeds, the final
segment's value becomes `"****"`.  (iii) Every path that is neither a prefix
of the rule's path nor an extension of it reads the same before and after. -/
theorem redact_at_path_frame (v : JVal) (path : String) :
    (canRedact v (pySplitDot path) = false → redact_at_path v path = v) ∧
    (canRedact v (pySplitDot path) = true →
      getPath (redact_at_path v path) (pySplitDot path) = some (JVal.jstr "****")) ∧
    (∀ q : List String, segPre q (pySplitDot path) = false →
      segPre (pySplitDot path) q = false →
      getPath (redact_at_path v path) q = getPath v q) :=
  ⟨fun h => redactParts_of_not_canRedact _ _ h,
   fun h => getPath_redactParts_self _ _ h,
   fun _ h1 h2 => getPath_redactParts_frame _ _ _ h1 h2⟩

/-- C8 witness: on the spec's card-number example, the rule masks exactly the
designated leaf, a sibling leaf is untouched, and a missing path is a no-op. -/
theorem redact_at_path_frame_witness :
    getPath
        (redact_at_path
          (JVal.jobj [("response", JVal.jobj [("data", JVal.jobj
            [("card_number", JVal.jstr "4111"), ("status", JVal.jstr "ok")])])])
          "response.data.card_number")
        (pySplitDot "response.data.card_number") = some (JVal.jstr "****") ∧
    getPath
        (redact_at_path
          (JVal.jobj [("response", JVal.jobj [("data", JVal.jobj
            [("card_number", JVal.jstr "4111"), ("status", JVal.jstr "ok")])])])
          "response.data.card_number")
        ["response", "data", "status"] =
      getPath
        (JVal.jobj [("response", JVal.jobj [("data", JVal.jobj
          [("card_number", JVal.jstr "4111"), ("status", JVal.jstr "ok")])])])
        ["response", "data", "status"] ∧
    redact_at_path
        (JVal.jobj [("response", JVal.jobj [("data", JVal.jobj
          [("card_number", JVal.jstr "4111"), ("status", JVal.jstr "ok")])])])
        "response.data.missing" =
      JVal.jobj [("response", JVal.jobj [("data", JVal.jobj
        [("card_number", JVal.jstr "4111"), ("status", JVal.jstr "ok")])])] :=
  ⟨(redact_at_path_frame _ "response.data.card_number").2.1 (by decide),
   (redact_at_path_frame _ "response.data.card_number").2.2
     ["response", "data", "status"] (by decide) (by decide),
   (redact_at_path_frame _ "response.data.missing").1 (by decide)⟩

/-! ## Claim C10 -/

theorem submitProofAsync_onchain (resp : JObj) (tn : Option String)
    (ac : AttestationConfig) (rb : JObj) (ru : String) (now : Int) (s : Submission)
    (h : submitProofAsync resp tn ac rb ru now = some s) :
    s.record.onchain_compatible = acontains resp "onchainProof" := by
  unfold submitProofAsync at h
  rcases hp : alookup resp "proof" with _ | pv <;> rw [hp] at h
  · simp at h
  · by_cases ht : truthy pv
    · simp only [ht, if_true, Option.some.injEq] at h
      subst h
      rfl
    · simp [ht] at h

/-- C10: with attestation configured and enabled, a submission task is started
iff the response's `proof` field is present with a truthy value (an empty
object, empty string, null, false or zero starts none), while the
on-chain-compatible flag of a started submission's record is decided by mere
key presence of `onchainProof`. -/
theorem submission_iff_truthy_proof (cfg : ProxyConfig) (url method : String)
    (body : Option JObj) (resp : JObj) (now : Int) (att : AttResponse)
    (ac : AttestationConfig) (hc : cfg.attestation_config = some ac)
    (he : ac.enabled = true) :
    ((zkfetchRun cfg url method body resp now att).submission.isSome =
      match alookup resp "proof" with
      | some pv => truthy pv
      | none => false) ∧
    (∀ s, (zkfetchRun cfg url method body resp now att).submission = some s →
      s.record.onchain_compatible = acontains resp "onchainProof") := by
  have hsub := zkfetchRun_submission cfg url method body resp now att
  rw [hc] at hsub
  simp only [he, if_true] at hsub
  constructor
  · rw [hsub]
    rcases hp : alookup resp "proof" with _ | pv
    · simp [submitProofAsync, hp]
    · by_cases ht : truthy pv <;> simp [submitProofAsync, hp, ht]
  · intro s hs
    rw [hsub] at hs
    exact submitProofAsync_onchain _ _ _ _ _ _ _ hs

/-! ## Lemmas about the body-hiding loop -/

theorem hideFromBody_cons_str_hit (s : String) (v : JVal) (hp : List JVal)
    (st : JObj × JObj) (h : alookup st.1 s = some v) :
    hideFromBody (JVal.jstr s :: hp) st =
      hideFromBody hp
        (aset st.1 s (JVal.jstr ("\x7b" ++ s ++ "\x7d")), aset st.2 s v) := by
  unfold hideFromBody
  rw [List.foldl_cons]
  simp [h]

theorem hideFromBody_cons_str_miss (s : String) (hp : List JVal)
    (st : JObj × JObj) (h : alookup st.1 s = none) :
    hideFromBody (JVal.jstr s :: hp) st = hideFromBody hp st := by
  unfold hideFromBody
  rw [List.foldl_cons]
  simp [h]

theorem hideFromBody_cons_nonstr (x : JVal) (hp : List JVal) (st : JObj × JObj)
    (h : ∀ s, x ≠ JVal.jstr s) :
    hideFromBody (x :: hp) st = hideFromBody hp st := by
  unfold hideFromBody
  rw [List.foldl_cons]
  congr 1
  rcases x with _ | b | n | s | xs | fs
  case jstr => exact absurd rfl (h s)
  all_goals rfl

/-- After the body loop, a field whose key has some value in the incoming body
holds the placeholder exactly when its name is listed, else its old value. -/
theorem hideFromBody_body_lookup (hp : List JVal) (st : JObj × JObj)
    (p : String) (w : JVal) (h : alookup st.1 p = some w) :
    alookup (hideFromBody hp st).1 p =
      some (if JVal.jstr p ∈ hp then JVal.jstr ("\x7b" ++ p ++ "\x7d") else w) := by
  induction hp generalizing st w with
  | nil => simpa [hideFromBody] using h
  | cons x hp ih =>
    rcases x with _ | b | n | s | xs | fs
    case jstr =>
      by_cases hsp : s = p
      · subst hsp
        rw [hideFromBody_cons_str_hit s w hp st h]
        have h2 : alookup (aset st.1 s (JVal.jstr ("\x7b" ++ s ++ "\x7d"))) s =
            some (JVal.jstr ("\x7b" ++ s ++ "\x7d")) := alookup_aset_self _ _ _
        rw [ih _ _ h2]
        by_cases hm : JVal.jstr s ∈ hp <;> simp [hm]
      · have hmem : (JVal.jstr p ∈ JVal.jstr s :: hp) ↔ (JVal.jstr p ∈ hp) := by
          constructor
          · intro hh
            rcases List.mem_cons.mp hh with hh | hh
            · injection hh with h1
              exact absurd h1.symm hsp
            · exact hh
          · exact fun hh => List.mem_cons_of_mem _ hh
        rcases hl : alookup st.1 s with _ | v
        · rw [hideFromBody_cons_str_miss s hp st hl, ih _ _ h]
          simp only [hmem]
        · have h2 : alookup (aset st.1 s (JVal.jstr ("\x7b" ++ s ++ "\x7d"))) p =
              some w := by
            rw [alookup_aset_ne _ _ _ _ (fun hh => hsp hh.symm)]
            exact h
          rw [hideFromBody_cons_str_hit s v hp st hl, ih _ _ h2]
          simp only [hmem]
    all_goals
      rw [hideFromBody_cons_nonstr _ _ _ (fun s hh => JVal.noConfusion hh), ih _ _ h]
      congr 1
      simp

/-- The body loop never touches a `param_values_map` key that is not listed. -/
theorem hideFromBody_pvm_notmem (hp : List JVal) (st : JObj × JObj) (p : String)
    (h : JVal.jstr p ∉ hp) :
    alookup (hideFromBody hp st).2 p = alookup st.2 p := by
  induction hp generalizing st with
  | nil => rfl
  | cons x hp ih =>
    have hx : x ≠ JVal.jstr p := fun hh => h (hh ▸ List.mem_cons_self x hp)
    have htl : JVal.jstr p ∉ hp := fun hh => h (List.mem_cons_of_mem x hh)
    rcases x with _ | b | n | s | xs | fs
    case jstr =>
      have hsp : s ≠ p := fun hh => hx (by rw [hh])
      rcases hl : alookup st.1 s with _ | v
      · rw [hideFromBody_cons_str_miss s hp st hl]
        exact ih _ htl
      · rw [hideFromBody_cons_str_hit s v hp st hl, ih _ htl]
        exact alookup_aset_ne _ _ _ _ (fun hh => hsp hh.symm)
    all_goals
      rw [hideFromBody_cons_nonstr _ _ _ (fun s hh => JVal.noConfusion hh)]
      exact ih _ htl

/-- A field name listed exactly once has its (pre-hiding) value recorded in
`param_values_map`. -/
theorem hideFromBody_pvm_lookup (hp : List JVal) (st : JObj × JObj)
    (p : String) (w : JVal) (hc : hp.count (JVal.jstr p) = 1)
    (h : alookup st.1 p = some w) :
    alookup (hideFromBody hp st).2 p = some w := by
  induction hp generalizing st w with
  | nil => simp [List.count_nil] at hc
  | cons x hp ih =>
    by_cases hx : x = JVal.jstr p
    · subst hx
      have h0 : hp.count (JVal.jstr p) = 0 := by
        have := List.count_cons_self (JVal.jstr p) hp
        omega
      have hnm : JVal.jstr p ∉ hp := by
        rw [← List.count_eq_zero]
        exact h0
      rw [hideFromBody_cons_str_hit p w hp st h, hideFromBody_pvm_notmem _ _ _ hnm]
      exact alookup_aset_self _ _ _
    · have hc' : hp.count (JVal.jstr p) = 1 := by
        rw [List.count_cons_of_ne (fun hh => hx hh.symm)] at hc
        exact hc
      rcases x with _ | b | n | s | xs | fs
      all_goals try
        (rw [hideFromBody_cons_nonstr _ _ _ (fun s hh => JVal.noConfusion hh)]
         exact ih _ _ hc' h)
      have hsp : s ≠ p := fun hh => hx (by rw [hh])
      rcases hl : alookup st.1 s with _ | v
      · rw [hideFromBody_cons_str_miss s hp st hl]
        exact ih _ _ hc' h
      · have h2 : alookup (aset st.1 s (JVal.jstr ("\x7b" ++ s ++ "\x7d"))) p =
            some w := by
          rw [alookup_aset_ne _ _ _ _ (fun hh => hsp hh.symm)]
          exact h
        rw [hideFromBody_cons_str_hit s v hp st hl]
        exact ih _ _ hc' h2

/-! ## Claim C9 -/

/-- C9: for a dict body containing a listed hidden field, `_zkfetch_request`
rewrites the caller's own body object in place (`final_body = body or ...`
aliases it and the loop assigns through it), so after the call the caller's
mapping holds the placeholder string instead of the original value. -/
theorem caller_body_mutated_in_place (cfg : ProxyConfig) (url method : String)
    (bs : JObj) (resp : JObj) (now : Int) (att : AttResponse)
    (po : JObj) (hp : List JVal) (p : String) (v : JVal)
    (hpo : (resolve_tool_options cfg (extract_tool_name (some bs))).private_options =
      some po)
    (hhp : alookup po "hiddenParameters" = some (JVal.jarr hp))
    (hmem : JVal.jstr p ∈ hp)
    (hbody : alookup bs p = some v) :
    (zkfetchRun cfg url method (some bs) resp now att).callerBody =
      some (zkfetchRun cfg url method (some bs) resp now att).finalBody ∧
    alookup (zkfetchRun cfg url method (some bs) resp now att).finalBody p =
      some (JVal.jstr ("\x7b" ++ p ++ "\x7d")) := by
  constructor
  · rw [zkfetchRun_callerBody]
    rfl
  · have hfb : (zkfetchRun cfg url method (some bs) resp now att).finalBody =
        (hideFromBody hp (bs, [])).1 := by
      rw [zkfetchRun_finalBody]
      unfold zkHidden
      simp [hpo, hhp]
    rw [hfb, hideFromBody_body_lookup hp (bs, []) p v hbody, if_pos hmem]

/-- C9 witness: a concrete hidden body field leaves the placeholder in the
caller's dict. -/
theorem caller_body_mutated_in_place_witness :
    (zkfetchRun
        { url := "http://proxy", proxy_type := "zkfetch",
          default_zk_options := some
            { private_options :=
                some [("hiddenParameters", JVal.jarr [JVal.jstr "secret"])] } }
        "http://api/x" "POST" (some [("secret", JVal.jstr "s3cr3t")])
        [("data", JVal.jstr "ok")] 7 (AttResponse.netError "e")).callerBody =
      some (zkfetchRun
        { url := "http://proxy", proxy_type := "zkfetch",
          default_zk_options := some
            { private_options :=
                some [("hiddenParameters", JVal.jarr [JVal.jstr "secret"])] } }
        "http://api/x" "POST" (some [("secret", JVal.jstr "s3cr3t")])
        [("data", JVal.jstr "ok")] 7 (AttResponse.netError "e")).finalBody ∧
    alookup (zkfetchRun
        { url := "http://proxy", proxy_type := "zkfetch",
          default_zk_options := some
            { private_options :=
                some [("hiddenParameters", JVal.jarr [JVal.jstr "secret"])] } }
        "http://api/x" "POST" (some [("secret", JVal.jstr "s3cr3t")])
        [("data", JVal.jstr "ok")] 7 (AttResponse.netError "e")).finalBody "secret" =
      some (JVal.jstr "\x7bsecret\x7d") :=
  caller_body_mutated_in_place _ _ _ _ _ _ _
    [("hiddenParameters", JVal.jarr [JVal.jstr "secret"])] [JVal.jstr "secret"]
    "secret" (JVal.jstr "s3cr3t") (by decide) (by decide) (by decide) (by decide)

/-! ## Claim C1 -/

theorem zkRewriteUrl_noquery (hidden : List JVal) (url : List Char) (pvm0 : JObj)
    (h : url.contains '?' = false) : zkRewriteUrl hidden url pvm0 = (url, pvm0) := by
  unfold zkRewriteUrl
  rw [h]
  rfl

/-- With a query-free URL, `zkHidden` for listed hidden parameters is exactly
the body loop. -/
theorem zkHidden_noquery (zkOptions : ZkfetchToolOptions) (url : String)
    (body0 : JObj) (po : JObj) (hp : List JVal)
    (hpo : zkOptions.private_options = some po)
    (hhp : alookup po "hiddenParameters" = some (JVal.jarr hp))
    (hurl : url.data.contains '?' = false) :
    zkHidden zkOptions url body0 =
      ((hideFromBody hp (body0, [])).1, url.data, (hideFromBody hp (body0, [])).2) := by
  unfold zkHidden
  simp [hpo, hhp, zkRewriteUrl_noquery _ _ _ hurl]

/-- C1 (amended): for a zkfetch request whose resolved tool options list a
hidden parameter name exactly once, that name being a top-level key of the
dict body, and whose URL carries no query string: the serialized body sent on
the wire holds the literal placeholder `"\x7bname\x7d"` as that field's value
(so not the original value, whenever the two differ), the original value is
recorded under the `paramValues` key of privateOptions, and the
`hiddenParameters` list is removed from privateOptions before the payload is
built.  (The original value may still appear elsewhere in the serialized body
when some other, non-hidden field holds an equal value — see the
counterexample.) -/
theorem hidden_body_param_hidden (cfg : ProxyConfig) (url method : String)
    (bs : JObj) (resp : JObj) (now : Int) (att : AttResponse)
    (po : JObj) (hp : List JVal) (p : String) (v : JVal)
    (hpo : (resolve_tool_options cfg (extract_tool_name (some bs))).private_options =
      some po)
    (hnd : (po.map Prod.fst).Nodup)
    (hhp : alookup po "hiddenParameters" = some (JVal.jarr hp))
    (hcount : hp.count (JVal.jstr p) = 1)
    (hbody : alookup bs p = some v)
    (hurl : url.data.contains '?' = false) :
    ((zkfetchRun cfg url method (some bs) resp now att).payload.publicOptions.body =
        some (zkfetchRun cfg url method (some bs) resp now att).finalBody ∧
      alookup (zkfetchRun cfg url method (some bs) resp now att).finalBody p =
        some (JVal.jstr ("\x7b" ++ p ++ "\x7d")) ∧
      (v ≠ JVal.jstr ("\x7b" ++ p ++ "\x7d") →
        alookup (zkfetchRun cfg url method (some bs) resp now att).finalBody p ≠
          some v)) ∧
    (∃ pvm,
      alookup (zkfetchRun cfg url method (some bs) resp now att).payload.privateOptions
          "paramValues" = some (JVal.jobj pvm) ∧
      alookup pvm p = some v) ∧
    alookup (zkfetchRun cfg url method (some bs) resp now att).payload.privateOptions
        "hiddenParameters" = none := by
  have hmem : JVal.jstr p ∈ hp := by
    by_contra hnm
    rw [List.count_eq_zero.mpr hnm] at hcount
    omega
  have hzk := zkHidden_noquery (resolve_tool_options cfg (extract_tool_name (some bs)))
    url bs po hp hpo hhp hurl
  have hfb : (zkfetchRun cfg url method (some bs) resp now att).finalBody =
      (hideFromBody hp (bs, [])).1 := by
    rw [zkfetchRun_finalBody]
    simp [hzk]
  have hlk : alookup (zkfetchRun cfg url method (some bs) resp now att).finalBody p =
      some (JVal.jstr ("\x7b" ++ p ++ "\x7d")) := by
    rw [hfb, hideFromBody_body_lookup hp (bs, []) p v hbody, if_pos hmem]
  have hfbne : (zkfetchRun cfg url method (some bs) resp now att).finalBody ≠ [] :=
    alookup_ne_nil hlk
  have hfbie : (zkfetchRun cfg url method (some bs) resp now att).finalBody.isEmpty =
      false := by
    rcases hx : (zkfetchRun cfg url method (some bs) resp now att).finalBody with _ | _
    · exact absurd hx hfbne
    · rfl
  have hpvlk : alookup (hideFromBody hp (bs, [])).2 p = some v :=
    hideFromBody_pvm_lookup hp (bs, []) p v hcount hbody
  have hpvne : (hideFromBody hp (bs, [])).2 ≠ [] := alookup_ne_nil hpvlk
  have hpvie : (hideFromBody hp (bs, [])).2.isEmpty = false := by
    rcases hx : (hideFromBody hp (bs, [])).2 with _ | _
    · exact absurd hx hpvne
    · rfl
  have hpriv : (zkfetchRun cfg url method (some bs) resp now att).payload.privateOptions =
      apop (apop (aset po "paramValues" (JVal.jobj (hideFromBody hp (bs, [])).2))
        "hideRequestBody") "hiddenParameters" := by
    rw [zkfetchRun_privateOptions]
    simp only [hzk, hpo, Option.getD_some, hpvie]
    rfl
  refine ⟨⟨?_, hlk, ?_⟩, ⟨(hideFromBody hp (bs, [])).2, ?_, hpvlk⟩, ?_⟩
  · rw [zkfetchRun_payload_body, hfbie]
    rfl
  · intro hv heq
    rw [hlk] at heq
    exact hv (Option.some.injEq .. ▸ heq).symm
  · rw [hpriv]
    rw [alookup_apop_ne _ _ _ (by decide), alookup_apop_ne _ _ _ (by decide)]
    exact alookup_aset_self _ _ _
  · rw [hpriv]
    apply alookup_apop_self
    apply apop_keys_nodup
    exact aset_keys_nodup _ _ _ hnd

/-- C1 witness: a concrete hidden body field is replaced by its placeholder,
recorded under `paramValues`, and `hiddenParameters` is dropped. -/
theorem hidden_body_param_hidden_witness :
    ((zkfetchRun
        { url := "http://proxy", proxy_type := "zkfetch",
          default_zk_options := some
            { private_options :=
                some [("hiddenParameters", JVal.jarr [JVal.jstr "secret"])] } }
        "http://api/x" "POST" (some [("secret", JVal.jstr "s3cr3t")])
        [("data", JVal.jstr "ok")] 7
        (AttResponse.netError "e")).payload.publicOptions.body =
        some (zkfetchRun
        { url := "http://proxy", proxy_type := "zkfetch",
          default_zk_options := some
            { private_options :=
                some [("hiddenParameters", JVal.jarr [JVal.jstr "secret"])] } }
        "http://api/x" "POST" (some [("secret", JVal.jstr "s3cr3t")])
        [("data", JVal.jstr "ok")] 7 (AttResponse.netError "e")).finalBody ∧
      alookup (zkfetchRun
        { url := "http://proxy", proxy_type := "zkfetch",
          default_zk_options := some
            { private_options :=
                some [("hiddenParameters", JVal.jarr [JVal.jstr "secret"])] } }
        "http://api/x" "POST" (some [("secret", JVal.jstr "s3cr3t")])
        [("data", JVal.jstr "ok")] 7 (AttResponse.netError "e")).finalBody "secret" =
        some (JVal.jstr "\x7bsecret\x7d") ∧
      (JVal.jstr "s3cr3t" ≠ JVal.jstr "\x7bsecret\x7d" →
        alookup (zkfetchRun
        { url := "http://proxy", proxy_type := "zkfetch",
          default_zk_options := some
            { private_options :=
                some [("hiddenParameters", JVal.jarr [JVal.jstr "secret"])] } }
        "http://api/x" "POST" (some [("secret", JVal.jstr "s3cr3t")])
        [("data", JVal.jstr "ok")] 7 (AttResponse.netError "e")).finalBody "secret" ≠
          some (JVal.jstr "s3cr3t"))) ∧
    (∃ pvm,
      alookup (zkfetchRun
        { url := "http://proxy", proxy_type := "zkfetch",
          default_zk_options := some
            { private_options :=
                some [("hiddenParameters", JVal.jarr [JVal.jstr "secret"])] } }
        "http://api/x" "POST" (some [("secret", JVal.jstr "s3cr3t")])
        [("data", JVal.jstr "ok")] 7
        (AttResponse.netError "e")).payload.privateOptions "paramValues" =
          some (JVal.jobj pvm) ∧
      alookup pvm "secret" = some (JVal.jstr "s3cr3t")) ∧
    alookup (zkfetchRun
        { url := "http://proxy", proxy_type := "zkfetch",
          default_zk_options := some
            { private_options :=
                some [("hiddenParameters", JVal.jarr [JVal.jstr "secret"])] } }
        "http://api/x" "POST" (some [("secret", JVal.jstr "s3cr3t")])
        [("data", JVal.jstr "ok")] 7
        (AttResponse.netError "e")).payload.privateOptions "hiddenParameters" = none :=
  hidden_body_param_hidden _ _ _ _ _ _ _
    [("hiddenParameters", JVal.jarr [JVal.jstr "secret"])] [JVal.jstr "secret"]
    "secret" (JVal.jstr "s3cr3t")
    (by decide) (by decide) (by decide) (by decide) (by decide) (by decide)

/-- C1 counterexample: the claim's "the original value of that field does not
appear in the serialized body" fails when another, non-hidden field holds an
equal value — with body `\x7b"a": "x", "b": "x"\x7d` and hidden parameter
`a`, the serialized body still contains the original value `"x"` (under
`b`), even though `a` itself was replaced by the placeholder and recorded in
`paramValues`. -/
theorem hidden_value_still_appears_cex :
    (zkfetchRun
        { url := "http://proxy", proxy_type := "zkfetch",
          default_zk_options := some
            { private_options :=
                some [("hiddenParameters", JVal.jarr [JVal.jstr "a"])] } }
        "http://api/x" "POST"
        (some [("a", JVal.jstr "x"), ("b", JVal.jstr "x")]) [] 0
        (AttResponse.netError "e")).payload.publicOptions.body =
      some [("a", JVal.jstr "\x7ba\x7d"), ("b", JVal.jstr "x")] ∧
    occursVal (JVal.jstr "x")
      (JVal.jobj [("a", JVal.jstr "\x7ba\x7d"), ("b", JVal.jstr "x")]) = true ∧
    (zkfetchRun
        { url := "http://proxy", proxy_type := "zkfetch",
          default_zk_options := some
            { private_options :=
                some [("hiddenParameters", JVal.jarr [JVal.jstr "a"])] } }
        "http://api/x" "POST"
        (some [("a", JVal.jstr "x"), ("b", JVal.jstr "x")]) [] 0
        (AttResponse.netError "e")).payload.privateOptions =
      [("paramValues", JVal.jobj [("a", JVal.jstr "x")])] := by
  refine ⟨by decide, by decide, by decide⟩

/-! ## Claim C4 -/

/-- C4 (amended): for a URL `base?k1=v1&...&kn=vn` whose query-parameter names
are distinct and whose names and values are free of percent and plus escapes
and separators (values may contain `=`), with exactly the parameter `p` named in
the hidden list: the rewritten URL replaces only `p`'s value with the literal
double-brace placeholder, preserves the order and values of every other query
parameter exactly, and the decoded original value of `p` is recorded in the
parameter map.  (Without those restrictions the loop re-emits values
percent-decoded and regroups duplicate names — see the counterexample.) -/
theorem query_rewrite_preserves_others (hidden : List JVal) (base : List Char)
    (pairs : List (List Char × List Char)) (p vp : List Char) (pvm0 : JObj)
    (hbase : '?' ∉ base)
    (hclean : ∀ kv ∈ pairs, cleanPair kv)
    (hkeys : (pairs.map Prod.fst).Nodup)
    (hmem : (p, vp) ∈ pairs)
    (hhid : hidden.contains (JVal.jstr (String.mk p)) = true)
    (hothers : ∀ kv ∈ pairs, kv.1 ≠ p →
      hidden.contains (JVal.jstr (String.mk kv.1)) = false) :
    zkRewriteUrl hidden
        (base ++ '?' :: interAmp (pairs.map fun kv => kv.1 ++ '=' :: kv.2)) pvm0 =
      (base ++ '?' :: interAmp (pairs.map fun kv =>
          if kv.1 = p then
            kv.1 ++ '=' :: '\x7b' :: '\x7b' :: (kv.1 ++ ['\x7d', '\x7d'])
          else kv.1 ++ '=' :: kv.2),
       aset pvm0 (String.mk p) (JVal.jstr (String.mk vp))) := by
  have hne : pairs ≠ [] := by
    intro he
    rw [he] at hmem
    simp at hmem
  have hvp : pyUnquote vp = vp := by
    obtain ⟨hk1, hk2, hk3, hk4, hk5, hv1, hv2, hv3⟩ := hclean (p, vp) hmem
    exact pyUnquote_id vp hv2
  have hcont : (base ++ '?' ::
      interAmp (pairs.map fun kv => kv.1 ++ '=' :: kv.2)).contains '?' = true := by
    simp
  have hbrk : chBreakFirst '?'
      (base ++ '?' :: interAmp (pairs.map fun kv => kv.1 ++ '=' :: kv.2)) =
      (base, some (interAmp (pairs.map fun kv => kv.1 ++ '=' :: kv.2))) :=
    chBreakFirst_append '?' base _ hbase
  unfold zkRewriteUrl
  rw [hcont, if_pos rfl, hbrk]
  simp only [parse_qs_clean pairs hne hclean hkeys,
    rewriteLoop_one_hidden hidden pairs p vp [] pvm0 false hkeys hmem hhid hothers,
    List.nil_append, hvp, if_pos rfl, if_true]

/-- C4 witness: hiding `s` in `http://h/p?a=1&s=v` rewrites only `s`,
preserves `a=1`, and records `v`. -/
theorem query_rewrite_preserves_others_witness :
    zkRewriteUrl [JVal.jstr "s"]
        ("http://h/p".data ++ '?' ::
          interAmp ([("a".data, "1".data), ("s".data, "v".data)].map
            fun kv => kv.1 ++ '=' :: kv.2)) [] =
      ("http://h/p".data ++ '?' ::
        interAmp ([("a".data, "1".data), ("s".data, "v".data)].map fun kv =>
          if kv.1 = "s".data then
            kv.1 ++ '=' :: '\x7b' :: '\x7b' :: (kv.1 ++ ['\x7d', '\x7d'])
          else kv.1 ++ '=' :: kv.2),
       aset [] (String.mk "s".data) (JVal.jstr (String.mk "v".data))) :=
  query_rewrite_preserves_others [JVal.jstr "s"] "http://h/p".data
    [("a".data, "1".data), ("s".data, "v".data)] "s".data "v".data []
    (by decide) (by decide) (by decide) (by decide) (by decide) (by decide)

/-- C4 counterexample: with hidden parameter `s`, the URL
`http://h/p?a=x%20y&s=v` is rewritten to `http://h/p?a=x y&s=\x7b\x7bs\x7d\x7d`:
the untouched parameter `a` does NOT keep its value exactly as it appeared —
`parse_qs` percent-decodes it and the loop re-emits it decoded. -/
theorem query_rewrite_cex :
    zkRewriteUrl [JVal.jstr "s"] "http://h/p?a=x%20y&s=v".data [] =
      ("http://h/p?a=x y&s=\x7b\x7bs\x7d\x7d".data, [("s", JVal.jstr "v")]) ∧
    "http://h/p?a=x y&s=\x7b\x7bs\x7d\x7d".data ≠
      "http://h/p?a=x%20y&s=\x7b\x7bs\x7d\x7d".data := by
  constructor
  · decide
  · decide

/-! ## Claim C2 -/

theorem submitProofAsync_request (resp : JObj) (tn : Option String)
    (ac : AttestationConfig) (rb : JObj) (ru : String) (now : Int) (s : Submission)
    (h : submitProofAsync resp tn ac rb ru now = some s) :
    s.record.request = [("url", JVal.jstr ru), ("body", JVal.jobj rb)] := by
  unfold submitProofAsync at h
  rcases hp : alookup resp "proof" with _ | pv <;> rw [hp] at h
  · simp at h
  · by_cases ht : truthy pv
    · simp only [ht, if_true, Option.some.injEq] at h
      subst h
      rfl
    · simp [ht] at h

/-- C2 (amended): the request embedded in the proof record is the POST-hiding
request — the stored body is `final_body` (with placeholder values) and the
stored URL is `final_url` (the rewritten one), not the caller's originals. -/
theorem record_embeds_posthiding_request (cfg : ProxyConfig) (url method : String)
    (body : Option JObj) (resp : JObj) (now : Int) (att : AttResponse)
    (s : Submission)
    (hs : (zkfetchRun cfg url method body resp now att).submission = some s) :
    s.record.request =
      [("url", JVal.jstr (zkfetchRun cfg url method body resp now att).finalUrl),
       ("body", JVal.jobj (zkfetchRun cfg url method body resp now att).finalBody)] := by
  rw [zkfetchRun_submission] at hs
  rcases hc : cfg.attestation_config with _ | ac <;> rw [hc] at hs
  · simp at hs
  · by_cases he : ac.enabled
    · simp only [he, if_true] at hs
      exact submitProofAsync_request _ _ _ _ _ _ _ hs
    · simp [he] at hs

/-- C2 witness: the record of a concrete hidden-parameter request embeds the
rewritten url and the placeholder body. -/
theorem record_embeds_posthiding_request_witness :
    (match (zkfetchRun
        { url := "http://proxy", proxy_type := "zkfetch",
          default_zk_options := some
            { private_options :=
                some [("hiddenParameters", JVal.jarr [JVal.jstr "secret"])] },
          attestation_config := some { service_url := "http://att" } }
        "http://api/x" "POST" (some [("secret", JVal.jstr "s3cr3t")])
        [("data", JVal.jstr "ok"), ("proof", JVal.jobj [("sig", JVal.jstr "p")])]
        7 (AttResponse.netError "e")).submission with
     | some s => s.record.request
     | none => []) =
      [("url", JVal.jstr "http://api/x"),
       ("body", JVal.jobj [("secret", JVal.jstr "\x7bsecret\x7d")])] := by
  rcases hs : (zkfetchRun
      { url := "http://proxy", proxy_type := "zkfetch",
        default_zk_options := some
          { private_options :=
              some [("hiddenParameters", JVal.jarr [JVal.jstr "secret"])] },
        attestation_config := some { service_url := "http://att" } }
      "http://api/x" "POST" (some [("secret", JVal.jstr "s3cr3t")])
      [("data", JVal.jstr "ok"), ("proof", JVal.jobj [("sig", JVal.jstr "p")])]
      7 (AttResponse.netError "e")).submission with _ | s
  · exact absurd hs (by decide)
  · show s.record.request = _
    rw [record_embeds_posthiding_request _ _ _ _ _ _ _ s hs]
    decide

/-- C2 counterexample: with hidden parameter `secret` whose original value is
`s3cr3t`, the body embedded in the proof record holds the placeholder, not
the caller's original value — the record embeds the post-hiding request. -/
theorem record_embeds_original_request_cex :
    ((zkfetchRun
        { url := "http://proxy", proxy_type := "zkfetch",
          default_zk_options := some
            { private_options :=
                some [("hiddenParameters", JVal.jarr [JVal.jstr "secret"])] },
          attestation_config := some { service_url := "http://att" } }
        "http://api/x" "POST" (some [("secret", JVal.jstr "s3cr3t"), ("q", JVal.jstr "v")])
        [("data", JVal.jstr "ok"), ("proof", JVal.jobj [("sig", JVal.jstr "p")])]
        7 (AttResponse.netError "e")).submission.map
      fun s => alookup s.record.request "body") =
      some (some (JVal.jobj
        [("secret", JVal.jstr "\x7bsecret\x7d"), ("q", JVal.jstr "v")])) ∧
    JVal.jstr "\x7bsecret\x7d" ≠ JVal.jstr "s3cr3t" := by
  constructor
  · decide
  · decide

/-- C10 witness: an empty-object `proof` is falsy and starts no submission
even with attestation enabled; a non-empty `proof` object starts one, and its
record's on-chain flag reflects presence of `onchainProof`. -/
theorem submission_iff_truthy_proof_witness :
    ((zkfetchRun
        { url := "http://p", proxy_type := "zkfetch",
          attestation_config := some { service_url := "http://att" } }
        "http://api" "POST" none
        [("data", JVal.jstr "ok"), ("proof", JVal.jobj [])]
        3 (AttResponse.netError "x")).submission.isSome = false) ∧
    ((zkfetchRun
        { url := "http://p", proxy_type := "zkfetch",
          attestation_config := some { service_url := "http://att" } }
        "http://api" "POST" none
        [("data", JVal.jstr "ok"), ("proof", JVal.jobj [("sig", JVal.jstr "p")]),
         ("onchainProof", JVal.jstr "oc")]
        3 (AttResponse.netError "x")).submission.isSome = true) := by
  constructor
  · exact (submission_iff_truthy_proof _ _ _ _ _ _ _ _ rfl rfl).1
  · exact (submission_iff_truthy_proof _ _ _ _ _ _ _ _ rfl rfl).1

end ZeroProof
